import Mathlib

/-!
Threshold ranges of `nagiosplugin` (`v2/range.go`).

A shallow embedding of `Range`, `ParseRange`, `Range.Check` and `Range.String`.

* Go strings are lists of characters (`GoString`).  The source only inspects
  ASCII characters (`'@'`, `'~'`, `':'`, blanks), so positions counted in
  characters and positions counted in bytes cut a well-formed text at the same
  places.
* `float64` is the IEEE-754 binary64 format given by its three bit fields, so
  comparisons (including the behaviour of NaN and of the two zeros) are exact.
* `strconv.ParseFloat` and `fmtPerfFloat` are not part of `range.go`; the
  functions that call them take them as arguments.
* A Go run-time panic (index or slice out of range) is the outcome `panic`.
-/

namespace Nagiosplugin

/-! ## float64 -/

/-- The `Err` field of a `*strconv.NumError`: the two failures `strconv.ParseFloat` reports. -/
inductive NumError where
  | ErrSyntax
  | ErrRange
deriving DecidableEq, Repr

/-- An IEEE-754 binary64 value: sign bit, 11-bit biased exponent, 52-bit fraction. -/
structure F64 where
  sign : Bool
  expo : Fin 2048
  frac : Fin 4503599627370496
deriving DecidableEq, Repr

namespace F64

/-- Builds a value from raw fields, reducing them to their bit widths. -/
def ofFields (sign : Bool) (e f : Nat) : F64 :=
  ⟨sign, ⟨e % 2048, Nat.mod_lt _ (by decide)⟩, ⟨f % 4503599627370496, Nat.mod_lt _ (by decide)⟩⟩

/-- The Go constant `0` as a float64 (positive zero). -/
def zero : F64 := ofFields false 0 0

/-- Negative zero. -/
def negZero : F64 := ofFields true 0 0

/-- Go `math.Inf(sign)`: positive infinity if `sign >= 0`, negative infinity otherwise. -/
def Inf (sign : Int) : F64 := ofFields (decide (sign < 0)) 2047 0

/-- Go `math.NaN()`: the quiet NaN with bit pattern `0x7FF8000000000001`. -/
def NaN : F64 := ofFields false 2047 2251799813685249

/-- Go `math.IsNaN`. -/
def IsNaN (x : F64) : Bool := x.expo.val == 2047 && x.frac.val != 0

/-- Magnitude of the bit pattern without its sign; monotone in the absolute value. -/
def mag (x : F64) : Nat := x.expo.val * 4503599627370496 + x.frac.val

/-- Signed magnitude: for values that are not NaN, the numeric order is the order of the keys
(the two zeros share the key `0`). -/
def key (x : F64) : Int := if x.sign then - (x.mag : Int) else (x.mag : Int)

/-- Go `x <= y` on float64: false as soon as one side is NaN. -/
def le (x y : F64) : Bool := !x.IsNaN && !y.IsNaN && decide (x.key ≤ y.key)

/-- Go `x < y` on float64: false as soon as one side is NaN. -/
def lt (x y : F64) : Bool := !x.IsNaN && !y.IsNaN && decide (x.key < y.key)

/-- Go `x == y` on float64: NaN equals nothing, the two zeros are equal. -/
def eq (x y : F64) : Bool := !x.IsNaN && !y.IsNaN && decide (x.key = y.key)

/-- Go `x != y` on float64: the negation of `==`, so true when one side is NaN. -/
def ne (x y : F64) : Bool := !(eq x y)

/-- Bit length minus one, by halving at most `fuel` times. -/
def log2Loop : Nat → Nat → Nat
  | 0, _ => 0
  | fuel + 1, n => if n < 2 then 0 else log2Loop fuel (n / 2) + 1

/-- The integer `⌊log2 n⌋` for `n > 0` (and `0` for `n = 0`). -/
def log2 (n : Nat) : Nat := log2Loop n n

/-- The nearest binary64 to the rational `num / den` (`den > 0`), ties to even, with the sign
`neg`; a result beyond the largest finite value is the range error of `strconv`. -/
def round (neg : Bool) (num den : Nat) : Except NumError F64 :=
  if num = 0 then .ok (ofFields neg 0 0) else
  -- `fl = ⌊log2 (num / den)⌋`
  let k : Int := (log2 num : Int) - (log2 den : Int)
  let fl : Int := if den * 2 ^ k.toNat ≤ num * 2 ^ (-k).toNat then k else k - 1
  -- the result is `q * 2 ^ e` with `q < 2 ^ 53`; `e = -1074` for subnormal results
  let e : Int := max (fl - 52) (-1074)
  let n := num * 2 ^ (-e).toNat
  let d := den * 2 ^ e.toNat
  let q := n / d
  let r := n % d
  let q := if d < 2 * r ∨ (2 * r = d ∧ q % 2 = 1) then q + 1 else q
  let (q, e) := if q = 9007199254740992 then (4503599627370496, e + 1) else (q, e)
  if q < 4503599627370496 then .ok (ofFields neg 0 q)
  else if e + 1075 ≥ 2047 then .error .ErrRange
  else .ok (ofFields neg (e + 1075).toNat (q - 4503599627370496))

/-- Go conversion `float64(n)` of an integer of at most 64 bits: the nearest binary64. -/
def ofInt (n : Int) : F64 :=
  match round (decide (n < 0)) n.natAbs 1 with
  | .ok v => v
  | .error _ => Inf n

end F64

/-! ## The Range type and the alerting predicate -/

/-- Source: `type Range struct` (range.go, lines 16-20). -/
structure Range where
  Start : F64
  End : F64
  AlertOnInside : Bool
deriving DecidableEq, Repr

/-- Source: `func (r *Range) Check(value float64) bool` (range.go, lines 81-87). -/
def Range.Check (r : Range) (value : F64) : Bool :=
  -- Ranges are treated as a closed interval.
  if F64.le r.Start value && F64.le value r.End then
    r.AlertOnInside
  else
    !r.AlertOnInside

/-! ## Go strings -/

/-- A Go string, as the list of its characters. -/
abbrev GoString := List Char

/-- Go `strings.TrimLeft(s, cutset)`: drops the leading characters contained in `cutset`. -/
def TrimLeft (s cutset : GoString) : GoString :=
  s.dropWhile (fun c => cutset.contains c)

/-- Go `strings.TrimRight(s, cutset)`: drops the trailing characters contained in `cutset`. -/
def TrimRight (s cutset : GoString) : GoString :=
  (s.reverse.dropWhile (fun c => cutset.contains c)).reverse

/-- Go `strings.Trim(s, cutset)`: drops the leading and trailing characters contained in
`cutset`. -/
def Trim (s cutset : GoString) : GoString :=
  TrimRight (TrimLeft s cutset) cutset

/-- Search loop of `strings.Index`: position (counted from `i`) of the first place where
`substr` starts, or `-1`. -/
def indexFrom (substr : GoString) : GoString → Nat → Int
  | [], i => if substr = [] then (i : Int) else -1
  | c :: cs, i => if substr.isPrefixOf (c :: cs) then (i : Int) else indexFrom substr cs (i + 1)

/-- Go `strings.Index(s, substr)`: index of the first instance of `substr` in `s`, or `-1`. -/
def Index (s substr : GoString) : Int :=
  indexFrom substr s 0

/-- Go index expression `s[i]`; `none` stands for the run-time panic "index out of range". -/
def index (s : GoString) (i : Nat) : Option Char :=
  s.get? i

/-- Go slice expression `s[lo:hi]`; `none` stands for the run-time panic "slice bounds out of
range", raised unless `lo <= hi <= len(s)`. -/
def slice (s : GoString) (lo hi : Nat) : Option GoString :=
  if lo ≤ hi ∧ hi ≤ s.length then some ((s.take hi).drop lo) else none

/-- Go slice expression `s[lo:]`, that is `s[lo:len(s)]`. -/
def sliceFrom (s : GoString) (lo : Nat) : Option GoString :=
  slice s lo s.length

/-! ## Outcomes of a call -/

/-- The three errors `ParseRange` builds (range.go, lines 54, 65 and 71); the first two wrap the
error returned by `strconv.ParseFloat`. -/
inductive ParseError where
  | lowerLimit (err : NumError)
  | upperLimit (err : NumError)
  | invalidRange
deriving DecidableEq, Repr

/-- What a call of a Go function with results `(*T, error)` does: it returns `(t, nil)`, returns
`(nil, err)`, or panics at run time. -/
inductive Outcome (α : Type) where
  | ok (t : α)
  | error (err : ParseError)
  | panic
deriving DecidableEq, Repr

/-- Sequencing of Go statements: a return with an error or a panic ends the function. -/
def Outcome.bind {α β : Type} (x : Outcome α) (f : α → Outcome β) : Outcome β :=
  match x with
  | .ok t => f t
  | .error err => .error err
  | .panic => .panic

/-- An index or slice expression inside a function: `none` becomes the panic. -/
def Outcome.ofOption {α : Type} : Option α → Outcome α
  | some a => .ok a
  | none => .panic

/-! ## ParseRange -/

/-- The local variables of `ParseRange`: the range under construction `t` and the part of the
input still to be read, `rangeStr`. -/
structure Locals where
  t : Range
  rangeStr : GoString
deriving DecidableEq, Repr

/-- Source: range.go, lines 40-44 ("Check for inverted semantics"). -/
def checkInverted (v : Locals) : Outcome Locals :=
  (Outcome.ofOption (index v.rangeStr 0)).bind fun c =>
  if c = '@' then
    (Outcome.ofOption (sliceFrom v.rangeStr 1)).bind fun rest =>
    .ok { t := { v.t with AlertOnInside := true }, rangeStr := rest }
  else
    .ok v

/-- Source: range.go, lines 46-59 ("Parse lower limit"). -/
def parseLower (ParseFloat : GoString → Except NumError F64) (v : Locals) : Outcome Locals :=
  let endPos := Index v.rangeStr [':']
  if endPos > -1 then
    (Outcome.ofOption (index v.rangeStr 0)).bind fun c =>
    (if c = '~' then
      Outcome.ok { v.t with Start := F64.Inf (-1) }
    else
      (Outcome.ofOption (slice v.rangeStr 0 endPos.toNat)).bind fun lower =>
      match ParseFloat lower with
      | .error err => .error (.lowerLimit err)
      | .ok min => .ok { v.t with Start := min }).bind fun t =>
    (Outcome.ofOption (sliceFrom v.rangeStr (endPos + 1).toNat)).bind fun rest =>
    .ok { t := t, rangeStr := rest }
  else
    .ok v

/-- Source: range.go, lines 61-68 ("Parse upper limit"). -/
def parseUpper (ParseFloat : GoString → Except NumError F64) (v : Locals) : Outcome Locals :=
  if v.rangeStr.length > 0 then
    match ParseFloat v.rangeStr with
    | .error err => .error (.upperLimit err)
    | .ok max => .ok { v with t := { v.t with End := max } }
  else
    .ok v

/-- Source: range.go, lines 70-75 (the ordering test and the final return). -/
def checkOrder (v : Locals) : Outcome Range :=
  if F64.lt v.t.End v.t.Start then
    .error .invalidRange
  else
    .ok v.t

/-- Source: `func ParseRange(rangeStr string) (*Range, error)` (range.go, lines 30-76).
`ParseFloat` stands for `strconv.ParseFloat(·, 64)`. -/
def ParseRange (ParseFloat : GoString → Except NumError F64) (rangeStr : GoString) :
    Outcome Range :=
  -- Set defaults
  let t : Range := { Start := F64.zero, End := F64.Inf 1, AlertOnInside := false }
  -- Remove leading and trailing whitespace
  let rangeStr := Trim rangeStr [' ', '\n', '\r']
  (((checkInverted { t := t, rangeStr := rangeStr }).bind
    (parseLower ParseFloat)).bind
    (parseUpper ParseFloat)).bind
    checkOrder

/-- Source: `func (r *Range) String() string` (range.go, lines 101-113).
`fmtPerfFloat` is the number formatter of the package, which `range.go` calls but does not
define. -/
def Range.String (fmtPerfFloat : F64 → GoString) (r : Range) : GoString :=
  let s : GoString := []
  let s := if r.AlertOnInside then ['@'] else s
  let s := if F64.ne r.Start F64.zero && !F64.IsNaN r.Start then
      s ++ (fmtPerfFloat r.Start ++ [':'])
    else s
  let s := if !F64.IsNaN r.End then s ++ fmtPerfFloat r.End else s
  s

/-- Source: `func NewSimpleRangeFromFloat(start, end float64) (*Range, error)` (range.go,
lines 24-26). `Sprintf_f` stands for the verb `%f` of `fmt.Sprintf`, so that
`fmt.Sprintf("%f:%f", start, end)` is the two texts with a colon between them. -/
def NewSimpleRangeFromFloat (ParseFloat : GoString → Except NumError F64)
    (Sprintf_f : F64 → GoString) (start end' : F64) : Outcome Range :=
  ParseRange ParseFloat (Sprintf_f start ++ [':'] ++ Sprintf_f end')

/-! ## A model of the two `strconv` functions behind the parameters -/

deriving instance DecidableEq for Except

namespace Strconv

/-- Value of the digit `c` in base 10 or 16. -/
def digitOf (base : Nat) (c : Char) : Option Nat :=
  if '0' ≤ c ∧ c ≤ '9' then some (c.toNat - '0'.toNat)
  else if base = 16 ∧ 'a' ≤ c ∧ c ≤ 'f' then some (c.toNat - 'a'.toNat + 10)
  else if base = 16 ∧ 'A' ≤ c ∧ c ≤ 'F' then some (c.toNat - 'A'.toNat + 10)
  else none

/-- ASCII lower case of a letter. -/
def toLower (c : Char) : Char :=
  if 'A' ≤ c ∧ c ≤ 'Z' then Char.ofNat (c.toNat + 32) else c

/-- What the mantissa loop has read: the digits as a number, how many of them follow the
point, and whether a point and a digit were seen. -/
structure Mantissa where
  value : Nat
  fracDigits : Nat
  sawdot : Bool
  sawdigits : Bool
deriving DecidableEq, Repr

/-- The mantissa loop of `readFloat`: digits, at most one point, underscores skipped. Returns
what was read and the unread rest. -/
def scanMantissa (base : Nat) : GoString → Mantissa → Mantissa × GoString
  | [], m => (m, [])
  | c :: cs, m =>
    if c = '_' then scanMantissa base cs m
    else if c = '.' then
      if m.sawdot then (m, c :: cs) else scanMantissa base cs { m with sawdot := true }
    else
      match digitOf base c with
      | some d =>
        scanMantissa base cs
          { m with sawdigits := true, value := m.value * base + d,
                   fracDigits := if m.sawdot then m.fracDigits + 1 else m.fracDigits }
      | none => (m, c :: cs)

/-- The digit loop of the exponent: decimal digits, underscores skipped. As in `readFloat`, a
digit is only taken into the exponent while `e < 10000`; further digits are read and dropped. -/
def scanExponent : GoString → Nat → Nat × GoString
  | [], e => (e, [])
  | c :: cs, e =>
    if c = '_' then scanExponent cs e
    else match digitOf 10 c with
      | some d => scanExponent cs (if e < 10000 then e * 10 + d else e)
      | none => (e, c :: cs)

/-- Loop of `underscoreOK`; `saw` is the class of the last character: `'^'` start, `'0'` digit
(or base prefix), `'_'` underscore, `'!'` anything else. -/
def underscoreLoop (hex : Bool) : GoString → Char → Bool
  | [], saw => saw != '_'
  | c :: cs, saw =>
    if (digitOf (if hex then 16 else 10) c).isSome then underscoreLoop hex cs '0'
    else if c = '_' then (if saw != '0' then false else underscoreLoop hex cs '_')
    else if saw = '_' then false
    else underscoreLoop hex cs '!'

/-- Go `underscoreOK`: underscores only between digits, or between a base prefix and a digit. -/
def underscoreOK (s : GoString) : Bool :=
  let s := match s with
    | '-' :: r => r
    | '+' :: r => r
    | _ => s
  match s with
  | '0' :: b :: r =>
    if toLower b = 'b' ∨ toLower b = 'o' ∨ toLower b = 'x' then
      underscoreLoop (toLower b = 'x') r '0'
    else underscoreLoop false s '^'
  | _ => underscoreLoop false s '^'

/-- Go `special`: the texts `inf`, `infinity` (optionally signed) and `nan`, in any case. -/
def special (s : GoString) : Option F64 :=
  let l := s.map toLower
  if l = "inf".toList ∨ l = "+inf".toList ∨ l = "infinity".toList ∨ l = "+infinity".toList then
    some (F64.Inf 1)
  else if l = "-inf".toList ∨ l = "-infinity".toList then some (F64.Inf (-1))
  else if l = "nan".toList then some F64.NaN
  else none

/-- The number grammar of `readFloat` applied to a whole text: optional sign, optional `0x`
prefix, mantissa, exponent (`e` in base 10; `p`, required, in base 16). -/
def readFloat (s : GoString) : Except NumError F64 :=
  let (neg, s1) : Bool × GoString := match s with
    | '+' :: r => (false, r)
    | '-' :: r => (true, r)
    | _ => (false, s)
  let (hex, s2) : Bool × GoString := match s1 with
    | '0' :: x :: c :: r => if toLower x = 'x' then (true, c :: r) else (false, s1)
    | _ => (false, s1)
  let base := if hex then 16 else 10
  let (m, s3) := scanMantissa base s2 ⟨0, 0, false, false⟩
  if !m.sawdigits then .error .ErrSyntax else
  let expChar := if hex then 'p' else 'e'
  let exponent : Option (Int × GoString) := match s3 with
    | c :: r =>
      if toLower c = expChar then
        let (esign, r1) : Int × GoString := match r with
          | '+' :: r1 => (1, r1)
          | '-' :: r1 => (-1, r1)
          | _ => (1, r)
        match r1 with
        | d :: _ =>
          if (digitOf 10 d).isSome then
            let (e, r2) := scanExponent r1 0
            some (esign * (e : Int), r2)
          else none
        | [] => none
      else if hex then none else some (0, s3)
    | [] => if hex then none else some (0, [])
  match exponent with
  | none => .error .ErrSyntax
  | some (e, rest) =>
    if rest ≠ [] then .error .ErrSyntax
    else if s.contains '_' ∧ !underscoreOK s then .error .ErrSyntax
    else
      -- the value is `m.value * b ^ x`
      let (b, x) : Nat × Int :=
        if hex then (2, e - 4 * (m.fracDigits : Int)) else (10, e - (m.fracDigits : Int))
      F64.round neg (m.value * b ^ x.toNat) (b ^ (-x).toNat)

/-- Go `strconv.ParseFloat(s, 64)`: the special texts, else the number grammar; the value is
the nearest binary64 (ties to even), and a value that rounds beyond the largest finite number
is the range error. -/
def ParseFloat (s : GoString) : Except NumError F64 :=
  match special s with
  | some v => .ok v
  | none => readFloat s

/-- Exact value of a finite binary64, sign dropped, as a fraction `(num, den)`. -/
def magnitude (x : F64) : Nat × Nat :=
  if x.expo.val = 0 then (x.frac.val, 2 ^ 1074)
  else
    let m := 4503599627370496 + x.frac.val
    (m * 2 ^ (x.expo.val - 1075), 2 ^ (1075 - x.expo.val))

/-- For `0 < num / den < 1`: the least `j` with `num / den * 10 ^ j >= 1`, searched upwards
from `j`. -/
def firstDigitLoop (num den : Nat) : Nat → Nat → Nat
  | 0, j => j
  | fuel + 1, j => if den ≤ num * 10 ^ j then j else firstDigitLoop num den fuel (j + 1)

/-- The integer `⌊log10 (num / den)⌋` for a positive finite binary64 magnitude. -/
def floorLog10 (num den : Nat) : Int :=
  if den ≤ num then (((Nat.toDigits 10 (num / den)).length : Nat) : Int) - 1
  else - (firstDigitLoop num den 400 1 : Int)

/-- The decimal `d * 10 ^ k` with at most `n` digits that is closest to `num / den` among those
that read back (through `F64.round`) as `x`, if there is one. -/
def shortestAt (x : F64) (num den : Nat) (p10 : Int) (n : Nat) : Option (Nat × Int) :=
  let k : Int := p10 - (n : Int) + 1
  let N := num * 10 ^ (-k).toNat
  let D := den * 10 ^ k.toNat
  let lo := N / D
  let r := N % D
  let back (d : Nat) : Bool :=
    decide (F64.round x.sign (d * 10 ^ k.toNat) (10 ^ (-k).toNat) = Except.ok x)
  let loFirst : Bool := decide (2 * r < D) || (decide (2 * r = D) && decide (lo % 2 = 0))
  let (a, b) := if loFirst then (lo, lo + 1) else (lo + 1, lo)
  if back a then some (a, k) else if back b then some (b, k) else none

/-- Shortest-digits search of `FormatFloat` with precision `-1`: the first digit count, from
`n` upwards, at which some decimal reads back as `x`. Seventeen digits always identify a
binary64; should the search end without a result, the exact decimal expansion of `num / den`
(`den` a power of two) is taken. -/
def shortestLoop (x : F64) (num den : Nat) (p10 : Int) : Nat → Nat → Nat × Int
  | 0, _ => (num * 5 ^ F64.log2 den, - (F64.log2 den : Int))
  | fuel + 1, n =>
    match shortestAt x num den p10 n with
    | some dk => dk
    | none => shortestLoop x num den p10 fuel (n + 1)

/-- Removes the zeros at the end of the digits that follow the point. -/
def trimZeros : Nat → Nat × Int → Nat × Int
  | 0, dk => dk
  | fuel + 1, (d, k) => if k < 0 ∧ d % 10 = 0 then trimZeros fuel (d / 10, k + 1) else (d, k)

/-- The layout of the verb `f`: the decimal `d * 10 ^ k` written without exponent. -/
def fixedPoint (d : Nat) (k : Int) : GoString :=
  let ds := Nat.toDigits 10 d
  if 0 ≤ k then ds ++ List.replicate k.toNat '0'
  else
    let f := (-k).toNat
    if f < ds.length then ds.take (ds.length - f) ++ '.' :: ds.drop (ds.length - f)
    else '0' :: '.' :: (List.replicate (f - ds.length) '0' ++ ds)

/-- Go `strconv.FormatFloat(x, 'f', -1, 64)`: fixed-point text with the fewest digits that
still read back as `x`; `NaN`, `+Inf` and `-Inf` for the special values. -/
def FormatFloat (x : F64) : GoString :=
  if x.IsNaN then "NaN".toList
  else if x.expo.val = 2047 then (if x.sign then "-Inf".toList else "+Inf".toList)
  else
    let body : GoString :=
      if x.mag = 0 then ['0']
      else
        let (num, den) := magnitude x
        let (d, k) := trimZeros 20 (shortestLoop x num den (floorLog10 num den) 17 1)
        fixedPoint d k
    if x.sign then '-' :: body else body

end Strconv

/-! ## A model of the verb `%f` of `fmt.Sprintf` -/

namespace Fmt

/-- The integer nearest to `n / d` (`d > 0`), ties to even. -/
def roundHalfEven (n d : Nat) : Nat :=
  let q := n / d
  let r := n % d
  if d < 2 * r ∨ (2 * r = d ∧ q % 2 = 1) then q + 1 else q

/-- Exact value of a finite binary64, sign dropped, as a multiple of `2 ^ (-1074)`: the
significand (with its implicit bit for a normal number) shifted by the exponent. -/
def scaled (x : F64) : Nat :=
  if x.expo.val = 0 then x.frac.val
  else (4503599627370496 + x.frac.val) * 2 ^ (x.expo.val - 1)

/-- The decimal digits of `n`, most significant first, put in front of `acc`. -/
def digitsLoop : Nat → Nat → GoString → GoString
  | 0, _, acc => acc
  | fuel + 1, n, acc =>
    if n < 10 then Nat.digitChar n :: acc
    else digitsLoop fuel (n / 10) (Nat.digitChar (n % 10) :: acc)

/-- The decimal text of a natural number. -/
def decimal (n : Nat) : GoString := digitsLoop (n + 1) n []

/-- The `k` lowest decimal digits of `n`, most significant first, zeros included. -/
def fixedDigits : Nat → Nat → GoString
  | 0, _ => []
  | k + 1, n => fixedDigits k (n / 10) ++ [Nat.digitChar (n % 10)]

/-- Go `fmt.Sprintf("%f", x)`: fixed-point text with six digits behind the point, the value
rounded to the nearest multiple of `10 ^ (-6)` (ties to even); `NaN`, `+Inf` and `-Inf` for the
special values. -/
def Sprintf_f (x : F64) : GoString :=
  if x.IsNaN then "NaN".toList
  else if x.expo.val = 2047 then (if x.sign then "-Inf".toList else "+Inf".toList)
  else
    let d := roundHalfEven (scaled x * 1000000) (2 ^ 1074)
    (if x.sign then ['-'] else []) ++ decimal (d / 1000000) ++ '.' :: fixedDigits 6 (d % 1000000)

end Fmt

/-- Modelled from the spec: `fmtPerfFloat`, the number formatter of the package, which
`range.go` calls and does not define. Spec 4.4 gives its output as fixed-point decimal text
with the redundant trailing zeros trimmed, free of exponent notation and readable by the
parser; spec 9 says that the source prints a negative-infinity bound through this decimal
formatting. That is Go's `strconv.FormatFloat(n, 'f', -1, 64)`. -/
def fmtPerfFloat (n : F64) : GoString :=
  Strconv.FormatFloat n

/-! ## The grammar of the threshold text, written by cases -/

/-- The characters `ParseRange` trims: space, line feed, carriage return. -/
def isBlank (c : Char) : Bool := c == ' ' || c == '\n' || c == '\r'

/-- The characters a number text is written with: digits, letters (exponent marks, hexadecimal
digits, `Inf`, `NaN`), signs, the point and the underscore. -/
def isNumChar (c : Char) : Bool :=
  c.isAlphanum || c == '+' || c == '-' || c == '.' || c == '_'

/-- A text written only with number characters. -/
def numText (x : GoString) : Bool := x.all isNumChar

/-- Grammar step 3: the upper limit; an absent text keeps positive infinity. -/
def resolveUpper (ParseFloat : GoString → Except NumError F64) (start : F64) (text : GoString) :
    Except ParseError (F64 × F64) :=
  match (if text = [] then Except.ok (F64.Inf 1) else ParseFloat text) with
  | .error err => .error (.upperLimit err)
  | .ok e => .ok (start, e)

/-- Grammar steps 2 and 3 on the text that follows the optional `@`: the text is cut at its
first `:`; in front of it stands the marker `~` (negative infinity) or the lower limit, behind
it the upper limit; without `:` the whole text is the upper limit and the lower limit is 0. -/
def resolveBounds (ParseFloat : GoString → Except NumError F64) (text : GoString) :
    Except ParseError (F64 × F64) :=
  match text.span (fun c => c != ':') with
  | (_, []) => resolveUpper ParseFloat F64.zero text
  | (before, _ :: after) =>
    if text.head? = some '~' then resolveUpper ParseFloat (F64.Inf (-1)) after
    else
      match ParseFloat before with
      | .error err => .error (.lowerLimit err)
      | .ok start => resolveUpper ParseFloat start after

/-- Grammar steps 2 to 4: the resolved bounds, refused when the start exceeds the end. -/
def boundsOf (ParseFloat : GoString → Except NumError F64) (text : GoString) :
    Except ParseError (F64 × F64) :=
  match resolveBounds ParseFloat text with
  | .error err => .error err
  | .ok (a, b) => if F64.lt b a then .error .invalidRange else .ok (a, b)

/-- The text that follows the optional inversion marker. -/
def afterMarker (t : GoString) : GoString :=
  match t with
  | '@' :: rest => rest
  | _ => t

/-- Whether a text starts with the inversion marker `@`. -/
def hasMarker (t : GoString) : Bool :=
  match t with
  | '@' :: _ => true
  | _ => false


/-- The range built from the flag and the bounds, or the error that refused the bounds. -/
def rangeOutcome (inv : Bool) : Except ParseError (F64 × F64) → Outcome Range
  | .error err => .error err
  | .ok (a, b) => .ok { Start := a, End := b, AlertOnInside := inv }

/-- The grammar on a trimmed text: an empty text makes the first index expression panic;
otherwise the marker gives the flag and `boundsOf` gives the bounds. -/
def parseTrimmed (ParseFloat : GoString → Except NumError F64) (t : GoString) : Outcome Range :=
  match t with
  | [] => .panic
  | _ :: _ => rangeOutcome (hasMarker t) (boundsOf ParseFloat (afterMarker t))


/-! ## The rounding of `F64.round`, by its parts -/

/-- The binary exponent chosen by `F64.round` for `num / den` (both positive): the result is
`q * 2 ^ e` with `q` a significand of at most 53 bits. -/
def F64.binExp (num den : Nat) : Int :=
  let k : Int := (F64.log2 num : Int) - (F64.log2 den : Int)
  let fl : Int := if den * 2 ^ k.toNat ≤ num * 2 ^ (-k).toNat then k else k - 1
  max (fl - 52) (-1074)

/-- The magnitude (bit pattern without sign) of the binary64 nearest to `num / den`, as long as
it is below the pattern of the infinities. -/
def F64.roundKey (num den : Nat) : Nat :=
  if num = 0 then 0
  else
    let e := F64.binExp num den
    (e + 1074).toNat * 4503599627370496 +
      Fmt.roundHalfEven (num * 2 ^ (-e).toNat) (den * 2 ^ e.toNat)

/-- A finite binary64: neither NaN nor an infinity. -/
def F64.IsFinite (x : F64) : Bool := decide (x.expo.val < 2047)

/-- The six-decimal value `fmt.Sprintf("%f", x)` writes for a finite `x`, sign dropped, as a
multiple of `10 ^ (-6)`. -/
def Fmt.micro (x : F64) : Nat :=
  Fmt.roundHalfEven (Fmt.scaled x * 1000000) (2 ^ 1074)

/-! ## The stages of `Strconv.readFloat`, one by one -/

/-- The optional sign in front of a number text. -/
def Strconv.takeSign (s : GoString) : Bool × GoString :=
  match s with
  | '+' :: r => (false, r)
  | '-' :: r => (true, r)
  | _ => (false, s)

/-- The optional base prefix `0x` (followed by at least one character). -/
def Strconv.takeHex (s1 : GoString) : Bool × GoString :=
  match s1 with
  | '0' :: x :: c :: r => if Strconv.toLower x = 'x' then (true, c :: r) else (false, s1)
  | _ => (false, s1)

/-- The exponent part behind the mantissa: absent (allowed in base 10 only), or the exponent
mark, an optional sign and at least one digit. -/
def Strconv.takeExponent (hex : Bool) (s3 : GoString) : Option (Int × GoString) :=
  match s3 with
  | c :: r =>
    if Strconv.toLower c = (if hex then 'p' else 'e') then
      let (esign, r1) : Int × GoString := match r with
        | '+' :: r1 => (1, r1)
        | '-' :: r1 => (-1, r1)
        | _ => (1, r)
      match r1 with
      | d :: _ =>
        if (Strconv.digitOf 10 d).isSome then
          let (e, r2) := Strconv.scanExponent r1 0
          some (esign * (e : Int), r2)
        else none
      | [] => none
    else if hex then none else some (0, s3)
  | [] => if hex then none else some (0, [])

/-- A decimal digit character, `'0'` to `'9'`. -/
def Fmt.IsDigit (c : Char) : Prop := ∃ d, d < 10 ∧ c = Nat.digitChar d

/-- The number a run of decimal digits continues from `acc`. -/
def Fmt.valueOf (acc : Nat) (cs : GoString) : Nat :=
  cs.foldl (fun a c => a * 10 + (c.toNat - '0'.toNat)) acc

/-! ## Facts about float64 comparisons -/

namespace F64

theorem IsNaN_zero : IsNaN zero = false := by decide

theorem IsNaN_Inf (sign : Int) : IsNaN (Inf sign) = false := by
  simp [IsNaN, Inf, ofFields]

theorem IsNaN_NaN : IsNaN NaN = true := by decide

theorem key_zero : key zero = 0 := by decide

theorem key_posInf : key (Inf 1) = 9218868437227405312 := by decide

theorem key_negInf : key (Inf (-1)) = -9218868437227405312 := by decide

/-- The magnitude of a value that is not NaN is at most that of the infinities. -/
theorem mag_le_of_not_nan (x : F64) (h : IsNaN x = false) : x.mag ≤ 9218868437227405312 := by
  have he := x.expo.isLt
  have hf := x.frac.isLt
  unfold mag
  unfold IsNaN at h
  by_cases h1 : x.expo.val = 2047
  · simp [h1] at h
    omega
  · omega

theorem key_bounds (x : F64) (h : IsNaN x = false) :
    -9218868437227405312 ≤ x.key ∧ x.key ≤ 9218868437227405312 := by
  have hm := mag_le_of_not_nan x h
  unfold key
  split <;> omega

/-- A comparison with a NaN operand is false. -/
theorem le_nan_right (x y : F64) (h : IsNaN y = true) : le x y = false := by
  simp [le, h]

theorem le_nan_left (x y : F64) (h : IsNaN x = true) : le x y = false := by
  simp [le, h]

theorem lt_false_of_le (x y : F64) (h : le x y = true) : lt y x = false := by
  simp only [le, lt, Bool.and_eq_true, Bool.not_eq_true', decide_eq_true_eq] at h ⊢
  obtain ⟨⟨hx, hy⟩, hk⟩ := h
  simp [hx, hy]
  omega

theorem lt_false_of_eq (x y : F64) (h : eq x y = true) : lt y x = false := by
  simp only [eq, lt, Bool.and_eq_true, Bool.not_eq_true', decide_eq_true_eq] at h ⊢
  obtain ⟨⟨hx, hy⟩, hk⟩ := h
  simp [hx, hy]
  omega

/-- Away from NaN the order is total. -/
theorem le_of_lt_false (x y : F64) (hx : IsNaN x = false) (hy : IsNaN y = false)
    (h : lt y x = false) : le x y = true := by
  simp only [lt, le, hx, hy] at h ⊢
  simp at h ⊢
  omega

/-- Nothing is above positive infinity. -/
theorem lt_posInf_false (x : F64) : lt (Inf 1) x = false := by
  cases hx : IsNaN x
  · have hb := key_bounds x hx
    simp [lt, hx, IsNaN_Inf, key_posInf]
    omega
  · simp [lt, hx]

/-- Nothing is below negative infinity. -/
theorem lt_negInf_false (x : F64) : lt x (Inf (-1)) = false := by
  cases hx : IsNaN x
  · have hb := key_bounds x hx
    simp [lt, hx, IsNaN_Inf, key_negInf]
    omega
  · simp [lt, hx]

/-- The float64 values that compare equal to zero are the two zeros. -/
theorem eq_zero_iff (x : F64) : eq x zero = true ↔ x = zero ∨ x = negZero := by
  have he := x.expo.isLt
  have hf := x.frac.isLt
  constructor
  · intro h
    simp only [eq, Bool.and_eq_true, Bool.not_eq_true', decide_eq_true_eq, key_zero] at h
    obtain ⟨⟨hx, _⟩, hk⟩ := h
    have hm : x.mag = 0 := by
      unfold key at hk
      split at hk <;> omega
    unfold mag at hm
    have h1 : x.expo.val = 0 := by omega
    have h2 : x.frac.val = 0 := by omega
    obtain ⟨sg, ⟨e, he'⟩, ⟨f, hf'⟩⟩ := x
    simp only at h1 h2
    subst h1 h2
    cases sg
    · left; rfl
    · right; rfl
  · rintro (h | h) <;> subst h <;> decide

theorem key_eq_of_eq (x y : F64) (h : eq x y = true) : x.key = y.key := by
  simp only [eq, Bool.and_eq_true, decide_eq_true_eq] at h
  exact h.2

end F64

/-! ## Facts about the string primitives -/

theorem indexFrom_not_mem (s : GoString) (i : Nat) (h : ':' ∉ s) : indexFrom [':'] s i = -1 := by
  induction s generalizing i with
  | nil => simp [indexFrom]
  | cons c cs ih =>
    simp only [List.mem_cons, not_or] at h
    have hc : ¬ (':' = c) := h.1
    simp [indexFrom, List.isPrefixOf, hc, ih (i + 1) h.2]

theorem indexFrom_first (x y : GoString) (i : Nat) (h : ':' ∉ x) :
    indexFrom [':'] (x ++ ':' :: y) i = ((i + x.length : Nat) : Int) := by
  induction x generalizing i with
  | nil => simp [indexFrom, List.isPrefixOf]
  | cons c cs ih =>
    simp only [List.mem_cons, not_or] at h
    have hc : ¬ (':' = c) := h.1
    have hb : [':'].isPrefixOf (c :: (cs ++ ':' :: y)) = false := by
      simp [List.isPrefixOf, hc]
    rw [List.cons_append, indexFrom, hb]
    simp only [Bool.false_eq_true, ↓reduceIte]
    rw [ih (i + 1) h.2]
    simp only [List.length_cons, Nat.cast_add, Nat.cast_one]
    omega

/-- Without a `:` in the text, `strings.Index` answers `-1`. -/
theorem Index_not_mem (s : GoString) (h : ':' ∉ s) : Index s [':'] = -1 :=
  indexFrom_not_mem s 0 h

/-- The index of the first `:` is the length of the text in front of it. -/
theorem Index_first (x y : GoString) (h : ':' ∉ x) :
    Index (x ++ ':' :: y) [':'] = (x.length : Int) := by
  simpa [Index] using indexFrom_first x y 0 h

/-- A text has no `:`, or splits at its first `:`. -/
theorem colon_cases (s : GoString) :
    ':' ∉ s ∨ ∃ x y, s = x ++ ':' :: y ∧ ':' ∉ x := by
  induction s with
  | nil => left; simp
  | cons c cs ih =>
    by_cases hc : c = ':'
    · right; exact ⟨[], cs, by simp [hc], by simp⟩
    · rcases ih with h | ⟨x, y, hxy, hx⟩
      · left
        simp only [List.mem_cons, not_or]
        exact ⟨fun h' => hc h'.symm, h⟩
      · right
        refine ⟨c :: x, y, by simp [hxy], ?_⟩
        simp only [List.mem_cons, not_or]
        exact ⟨fun h' => hc h'.symm, hx⟩

theorem span_not_mem (s : GoString) (h : ':' ∉ s) :
    s.span (fun c => c != ':') = (s, []) := by
  rw [List.span_eq_take_drop]
  have hall : ∀ c ∈ s, (c != ':') = true := by
    intro c hc
    simp only [bne_iff_ne, ne_eq]
    rintro rfl
    exact h hc
  rw [List.takeWhile_eq_self_iff.mpr hall, List.dropWhile_eq_nil_iff.mpr hall]

theorem span_first (x y : GoString) (h : ':' ∉ x) :
    (x ++ ':' :: y).span (fun c => c != ':') = (x, ':' :: y) := by
  induction x with
  | nil => simp [List.span, List.span.loop]
  | cons c cs ih =>
    simp only [List.mem_cons, not_or] at h
    have hc : ¬ (c = ':') := fun h' => h.1 h'.symm
    rw [List.span_eq_take_drop] at ih ⊢
    have ih' := ih h.2
    simp only [Prod.mk.injEq] at ih'
    simp [List.takeWhile_cons, List.dropWhile_cons, hc, ih'.1, ih'.2]

theorem slice_front (x y : GoString) : slice (x ++ y) 0 x.length = some x := by
  simp [slice]

theorem sliceFrom_back (x y : GoString) : sliceFrom (x ++ y) x.length = some y := by
  simp only [sliceFrom, slice]
  rw [List.take_length]
  simp

theorem TrimLeft_eq_self (s cutset : GoString)
    (h : ∀ c, s.head? = some c → c ∉ cutset) : TrimLeft s cutset = s := by
  cases s with
  | nil => rfl
  | cons c cs =>
    have hc := h c rfl
    simp [TrimLeft, List.dropWhile_cons, hc]

theorem TrimRight_eq_self (s cutset : GoString)
    (h : ∀ c, s.getLast? = some c → c ∉ cutset) : TrimRight s cutset = s := by
  have h' : ∀ c, s.reverse.head? = some c → c ∉ cutset := by
    intro c hc
    apply h c
    simpa using hc
  have := TrimLeft_eq_self s.reverse cutset h'
  unfold TrimLeft at this
  simp only [TrimRight, this, List.reverse_reverse]

/-- Trimming changes nothing when neither the first nor the last character is in the cutset. -/
theorem Trim_eq_self (s cutset : GoString)
    (h1 : ∀ c, s.head? = some c → c ∉ cutset)
    (h2 : ∀ c, s.getLast? = some c → c ∉ cutset) : Trim s cutset = s := by
  unfold Trim
  rw [TrimLeft_eq_self s cutset h1, TrimRight_eq_self s cutset h2]

/-- Trimming a text made only of cutset characters leaves nothing. -/
theorem Trim_eq_nil (s cutset : GoString) (h : ∀ c ∈ s, c ∈ cutset) :
    Trim s cutset = [] := by
  have hl : TrimLeft s cutset = [] := by
    unfold TrimLeft
    apply List.dropWhile_eq_nil_iff.mpr
    intro c hc
    simpa using h c hc
  simp [Trim, hl, TrimRight]

/-! ## ParseRange computes the grammar -/

theorem checkInverted_cons (t : Range) (c : Char) (cs : GoString) :
    checkInverted { t := t, rangeStr := c :: cs } =
      .ok { t := { t with AlertOnInside := hasMarker (c :: cs) || t.AlertOnInside },
            rangeStr := afterMarker (c :: cs) } := by
  by_cases hc : c = '@'
  · subst hc
    simp [checkInverted, index, sliceFrom, slice, Outcome.ofOption, Outcome.bind, hasMarker,
      afterMarker]
  · have h1 : hasMarker (c :: cs) = false := by
      unfold hasMarker
      split
      · rename_i heq
        simp only [List.cons.injEq] at heq
        exact absurd heq.1 hc
      · rfl
    have h2 : afterMarker (c :: cs) = c :: cs := by
      unfold afterMarker
      split
      · rename_i heq
        simp only [List.cons.injEq] at heq
        exact absurd heq.1 hc
      · rfl
    simp [checkInverted, index, Outcome.ofOption, Outcome.bind, hc, h1, h2]

theorem upper_stage (ParseFloat : GoString → Except NumError F64) (a : F64) (inv : Bool)
    (text : GoString) :
    (parseUpper ParseFloat
        { t := { Start := a, End := F64.Inf 1, AlertOnInside := inv }, rangeStr := text }).bind
      checkOrder =
    match resolveUpper ParseFloat a text with
    | .error err => .error err
    | .ok (a', b) =>
      if F64.lt b a' then .error .invalidRange
      else .ok { Start := a', End := b, AlertOnInside := inv } := by
  unfold parseUpper resolveUpper
  cases text with
  | nil => simp [Outcome.bind, checkOrder, F64.lt_posInf_false]
  | cons c cs =>
    simp only [List.length_cons, gt_iff_lt, Nat.zero_lt_succ, ↓reduceIte, reduceCtorEq]
    cases hpf : ParseFloat (c :: cs) with
    | error err => simp [Outcome.bind]
    | ok e => simp only [Outcome.bind, checkOrder]

/-- The outcome that belongs to resolved or refused bounds. -/
theorem boundsOf_outcome (ParseFloat : GoString → Except NumError F64) (inv : Bool)
    (text : GoString) :
    rangeOutcome inv (boundsOf ParseFloat text) =
    match resolveBounds ParseFloat text with
    | .error err => .error err
    | .ok (a, b) =>
      if F64.lt b a then .error .invalidRange
      else .ok { Start := a, End := b, AlertOnInside := inv } := by
  unfold boundsOf
  cases resolveBounds ParseFloat text with
  | error err => rfl
  | ok ab =>
    obtain ⟨a, b⟩ := ab
    simp only
    split <;> rfl

theorem lower_stage_none (ParseFloat : GoString → Except NumError F64) (v : Locals)
    (h : ':' ∉ v.rangeStr) : parseLower ParseFloat v = .ok v := by
  simp [parseLower, Index_not_mem _ h]

theorem lower_stage_first (ParseFloat : GoString → Except NumError F64) (t : Range)
    (x y : GoString) (h : ':' ∉ x) :
    parseLower ParseFloat { t := t, rangeStr := x ++ ':' :: y } =
      if (x ++ ':' :: y).head? = some '~' then
        .ok { t := { t with Start := F64.Inf (-1) }, rangeStr := y }
      else
        match ParseFloat x with
        | .error err => .error (.lowerLimit err)
        | .ok min => .ok { t := { t with Start := min }, rangeStr := y } := by
  have hpos : (-1 : Int) < (x.length : Int) := by omega
  have hback : sliceFrom (x ++ ':' :: y) (x.length + 1) = some y := by
    have := sliceFrom_back (x ++ [':']) y
    simpa using this
  have hidx : index (x ++ ':' :: y) 0 = (x ++ ':' :: y).head? := by
    cases x <;> simp [index]
  simp only [parseLower, Index_first x y h, gt_iff_lt, hpos, ↓reduceIte, hidx, Int.toNat_ofNat,
    slice_front]
  have hn : ((x.length : Int) + 1).toNat = x.length + 1 := by omega
  rw [hn, hback]
  cases hh : (x ++ ':' :: y).head? with
  | none => cases x <;> simp at hh
  | some c =>
    by_cases hc : c = '~'
    · subst hc
      simp [Outcome.ofOption, Outcome.bind]
    · simp only [Outcome.ofOption, Outcome.bind, hc, ↓reduceIte, Option.some.injEq]
      cases ParseFloat x <;> rfl

/-- The stages that follow the marker test compute `boundsOf`. -/
theorem stages_eq (ParseFloat : GoString → Except NumError F64) (inv : Bool) (text : GoString) :
    (((parseLower ParseFloat
        { t := { Start := F64.zero, End := F64.Inf 1, AlertOnInside := inv },
          rangeStr := text }).bind
      (parseUpper ParseFloat)).bind checkOrder) =
    rangeOutcome inv (boundsOf ParseFloat text) := by
  rw [boundsOf_outcome]
  rcases colon_cases text with h | ⟨x, y, rfl, hx⟩
  · rw [lower_stage_none ParseFloat _ h]
    simp only [Outcome.bind, resolveBounds, span_not_mem text h]
    exact upper_stage ParseFloat F64.zero inv text
  · rw [lower_stage_first ParseFloat _ x y hx]
    simp only [resolveBounds, span_first x y hx]
    split
    · simp only [Outcome.bind]
      exact upper_stage ParseFloat (F64.Inf (-1)) inv y
    · cases hpf : ParseFloat x with
      | error err => simp [Outcome.bind]
      | ok a =>
        simp only [Outcome.bind]
        exact upper_stage ParseFloat a inv y

/-- `ParseRange` is the grammar applied to the trimmed input. -/
theorem ParseRange_eq (ParseFloat : GoString → Except NumError F64) (s : GoString) :
    ParseRange ParseFloat s = parseTrimmed ParseFloat (Trim s [' ', '\n', '\r']) := by
  unfold ParseRange
  simp only
  cases ht : Trim s [' ', '\n', '\r'] with
  | nil => simp [checkInverted, index, Outcome.ofOption, Outcome.bind, parseTrimmed]
  | cons c cs =>
    rw [checkInverted_cons]
    simp only [Bool.or_false, parseTrimmed]
    exact stages_eq ParseFloat (hasMarker (c :: cs)) (afterMarker (c :: cs))


/-! ## The alerting predicate -/

theorem F64.le_refl_of_le (x y : F64) (h : F64.le x y = true) :
    F64.le x x = true ∧ F64.le y y = true := by
  simp only [F64.le, Bool.and_eq_true, Bool.not_eq_true', decide_eq_true_eq] at h ⊢
  obtain ⟨⟨hx, hy⟩, _⟩ := h
  simp [hx, hy]

/-- C1: `Check` treats `[Start, End]` as a closed interval. It returns `AlertOnInside` when
`Start <= v` and `v <= End`, and the negation of `AlertOnInside` otherwise; both endpoints of
an interval with `Start <= End` are inside. -/
theorem Check_closed_interval (r : Range) (v : F64) :
    (F64.le r.Start v = true ∧ F64.le v r.End = true → r.Check v = r.AlertOnInside) ∧
    (¬ (F64.le r.Start v = true ∧ F64.le v r.End = true) → r.Check v = !r.AlertOnInside) ∧
    (F64.le r.Start r.End = true →
      r.Check r.Start = r.AlertOnInside ∧ r.Check r.End = r.AlertOnInside) := by
  refine ⟨?_, ?_, ?_⟩
  · intro h
    simp [Range.Check, h.1, h.2]
  · intro h
    unfold Range.Check
    rw [if_neg]
    simpa using h
  · intro h
    have hr := F64.le_refl_of_le _ _ h
    simp [Range.Check, h, hr.1, hr.2]

/-- Witness for C1 on the range `10:20`: the value 15 is inside, the value 25 is outside, and
the endpoints 10 and 20 are inside. -/
theorem Check_closed_interval_witness :
    Range.Check ⟨F64.ofInt 10, F64.ofInt 20, false⟩ (F64.ofInt 15) = false ∧
    Range.Check ⟨F64.ofInt 10, F64.ofInt 20, false⟩ (F64.ofInt 25) = true ∧
    Range.Check ⟨F64.ofInt 10, F64.ofInt 20, false⟩ (F64.ofInt 10) = false ∧
    Range.Check ⟨F64.ofInt 10, F64.ofInt 20, false⟩ (F64.ofInt 20) = false :=
  ⟨(Check_closed_interval ⟨F64.ofInt 10, F64.ofInt 20, false⟩ (F64.ofInt 15)).1
      ⟨by decide, by decide⟩,
   (Check_closed_interval ⟨F64.ofInt 10, F64.ofInt 20, false⟩ (F64.ofInt 25)).2.1 (by decide),
   ((Check_closed_interval ⟨F64.ofInt 10, F64.ofInt 20, false⟩ (F64.ofInt 15)).2.2
      (by decide)).1,
   ((Check_closed_interval ⟨F64.ofInt 10, F64.ofInt 20, false⟩ (F64.ofInt 15)).2.2
      (by decide)).2⟩

/-- C5: negating `AlertOnInside` and keeping the bounds negates `Check` at every value, inside
the interval and outside it, so exactly one of the two checks is true. -/
theorem Check_inverted_complement (r : Range) (v : F64) :
    Range.Check { r with AlertOnInside := !r.AlertOnInside } v = !(r.Check v) := by
  unfold Range.Check
  simp only
  split <;> simp

/-! ## Ordering of the parsed bounds -/

/-- The last stage of a successful call is the ordering test. -/
theorem ParseRange_ok_inv (ParseFloat : GoString → Except NumError F64) (s : GoString)
    (r : Range) (h : ParseRange ParseFloat s = .ok r) :
    Trim s [' ', '\n', '\r'] ≠ [] ∧
    r.AlertOnInside = hasMarker (Trim s [' ', '\n', '\r']) ∧
    boundsOf ParseFloat (afterMarker (Trim s [' ', '\n', '\r'])) = .ok (r.Start, r.End) := by
  rw [ParseRange_eq] at h
  cases ht : Trim s [' ', '\n', '\r'] with
  | nil =>
    rw [ht] at h
    simp [parseTrimmed] at h
  | cons c cs =>
    rw [ht] at h
    simp only [parseTrimmed] at h
    refine ⟨by simp, ?_⟩
    cases hb : boundsOf ParseFloat (afterMarker (c :: cs)) with
    | error err =>
      rw [hb] at h
      simp [rangeOutcome] at h
    | ok ab =>
      obtain ⟨a, b⟩ := ab
      rw [hb] at h
      simp only [rangeOutcome, Outcome.ok.injEq] at h
      subst h
      exact ⟨rfl, rfl⟩

theorem boundsOf_ok_lt (ParseFloat : GoString → Except NumError F64) (text : GoString)
    (a b : F64) (h : boundsOf ParseFloat text = .ok (a, b)) :
    resolveBounds ParseFloat text = .ok (a, b) ∧ F64.lt b a = false := by
  unfold boundsOf at h
  cases hr : resolveBounds ParseFloat text with
  | error err => simp [hr] at h
  | ok ab =>
    obtain ⟨a', b'⟩ := ab
    simp only [hr] at h
    split at h
    · exact absurd h (by simp)
    · rename_i hlt
      simp only [Except.ok.injEq, Prod.mk.injEq] at h
      obtain ⟨rfl, rfl⟩ := h
      exact ⟨rfl, by simpa using hlt⟩

/-- C3 as stated fails: the text `NaN` is accepted, and the range it yields has `Start = 0` and
`End = NaN`, for which `Start <= End` is false. -/
theorem ParseRange_ordered_counterexample :
    ¬ (∀ (s : GoString) (r : Range), ParseRange Strconv.ParseFloat s = .ok r →
        F64.le r.Start r.End = true) := by
  intro h
  have h1 := h "NaN".toList ⟨F64.zero, F64.NaN, false⟩ (by decide)
  revert h1
  decide

/-- C3, amended: on every input that `ParseRange` accepts, `End < Start` is false, and hence
`Start <= End` holds whenever neither bound is NaN. -/
theorem ParseRange_ordered (ParseFloat : GoString → Except NumError F64) (s : GoString)
    (r : Range) (h : ParseRange ParseFloat s = .ok r) :
    F64.lt r.End r.Start = false ∧
    (F64.IsNaN r.Start = false → F64.IsNaN r.End = false → F64.le r.Start r.End = true) := by
  have hlt := (boundsOf_ok_lt ParseFloat _ _ _ (ParseRange_ok_inv ParseFloat s r h).2.2).2
  exact ⟨hlt, fun hs he => F64.le_of_lt_false _ _ hs he hlt⟩

/-- Witness for the amended C3 on the input `10:20`. -/
theorem ParseRange_ordered_witness :
    F64.lt (F64.ofInt 20) (F64.ofInt 10) = false ∧
    (F64.IsNaN (F64.ofInt 10) = false → F64.IsNaN (F64.ofInt 20) = false →
      F64.le (F64.ofInt 10) (F64.ofInt 20) = true) :=
  ParseRange_ordered Strconv.ParseFloat "10:20".toList ⟨F64.ofInt 10, F64.ofInt 20, false⟩
    (by decide)

/-! ## Empty input -/

/-- C4 fails on the code: an input that is empty or made only of spaces, line feeds and carriage
returns is trimmed to the empty string, and the index expression `rangeStr[0]` of line 41 then
panics; no error is returned. -/
theorem ParseRange_blank_panics (ParseFloat : GoString → Except NumError F64) (s : GoString)
    (h : ∀ c ∈ s, isBlank c = true) : ParseRange ParseFloat s = .panic := by
  have ht : Trim s [' ', '\n', '\r'] = [] := by
    apply Trim_eq_nil
    intro c hc
    have := h c hc
    simp only [isBlank, Bool.or_eq_true, beq_iff_eq] at this
    simp only [List.mem_cons, List.mem_singleton, List.not_mem_nil, or_false]
    tauto
  rw [ParseRange_eq, ht]
  rfl

/-- Witness for the behaviour on blank input: the empty string and a string of three spaces. -/
theorem ParseRange_blank_panics_witness :
    ParseRange Strconv.ParseFloat [] = .panic ∧
    ParseRange Strconv.ParseFloat "   ".toList = .panic :=
  ⟨ParseRange_blank_panics Strconv.ParseFloat [] (by decide),
   ParseRange_blank_panics Strconv.ParseFloat "   ".toList (by decide)⟩

/-! ## The marker and the bound texts -/

theorem hasMarker_iff (t : GoString) : hasMarker t = true ↔ t.head? = some '@' := by
  cases t with
  | nil => simp [hasMarker]
  | cons c cs =>
    by_cases hc : c = '@'
    · subst hc
      simp [hasMarker]
    · have h1 : hasMarker (c :: cs) = false := by
        unfold hasMarker
        split
        · rename_i heq
          simp only [List.cons.injEq] at heq
          exact absurd heq.1 hc
        · rfl
      simp [h1, hc]

theorem afterMarker_of_not_marker (t : GoString) (h : t.head? ≠ some '@') :
    afterMarker t = t ∧ hasMarker t = false := by
  have h1 : hasMarker t = false := by
    cases hm : hasMarker t
    · rfl
    · exact absurd ((hasMarker_iff t).mp hm) h
  refine ⟨?_, h1⟩
  unfold afterMarker
  split
  · rename_i rest
    simp at h
  · rfl

theorem afterMarker_ne_nil (t : GoString) (h : afterMarker t ≠ []) : t ≠ [] := by
  rintro rfl
  exact h rfl

/-- The last character left by `Trim` is not in the cutset. -/
theorem Trim_getLast (s cutset : GoString) (c : Char)
    (h : (Trim s cutset).getLast? = some c) : c ∉ cutset := by
  unfold Trim TrimRight at h
  rw [List.getLast?_reverse] at h
  have := List.head?_dropWhile_not (fun c => cutset.contains c) (TrimLeft s cutset).reverse
  rw [h] at this
  simpa using this

theorem resolveBounds_no_colon (ParseFloat : GoString → Except NumError F64) (text : GoString)
    (h : ':' ∉ text) :
    resolveBounds ParseFloat text = resolveUpper ParseFloat F64.zero text := by
  simp only [resolveBounds, span_not_mem text h]

theorem resolveBounds_first (ParseFloat : GoString → Except NumError F64) (x y : GoString)
    (h : ':' ∉ x) :
    resolveBounds ParseFloat (x ++ ':' :: y) =
      if (x ++ ':' :: y).head? = some '~' then resolveUpper ParseFloat (F64.Inf (-1)) y
      else
        match ParseFloat x with
        | .error err => .error (.lowerLimit err)
        | .ok start => resolveUpper ParseFloat start y := by
  simp only [resolveBounds, span_first x y h]

/-- On a non-empty trimmed text the outcome is the one of the bounds. -/
theorem ParseRange_of_bounds (ParseFloat : GoString → Except NumError F64) (s : GoString)
    (hne : Trim s [' ', '\n', '\r'] ≠ []) :
    ParseRange ParseFloat s =
      rangeOutcome (hasMarker (Trim s [' ', '\n', '\r']))
        (boundsOf ParseFloat (afterMarker (Trim s [' ', '\n', '\r']))) := by
  rw [ParseRange_eq]
  cases ht : Trim s [' ', '\n', '\r'] with
  | nil => exact absurd ht hne
  | cons c cs => rfl

/-- C6: when the lower and the upper bound of the input resolve to the numbers `a` and `b`,
`ParseRange` fails with the invalid-range error if `a > b`, and succeeds with these bounds if
`a == b` (a single-point range). -/
theorem ParseRange_order_test (ParseFloat : GoString → Except NumError F64) (s : GoString)
    (a b : F64) (hne : Trim s [' ', '\n', '\r'] ≠ [])
    (hres : resolveBounds ParseFloat (afterMarker (Trim s [' ', '\n', '\r'])) = .ok (a, b)) :
    (F64.lt b a = true → ParseRange ParseFloat s = .error .invalidRange) ∧
    (F64.eq a b = true → ParseRange ParseFloat s =
      .ok { Start := a, End := b, AlertOnInside := hasMarker (Trim s [' ', '\n', '\r']) }) := by
  rw [ParseRange_of_bounds ParseFloat s hne]
  unfold boundsOf
  rw [hres]
  constructor
  · intro h
    simp [h, rangeOutcome]
  · intro h
    simp [F64.lt_false_of_eq a b h, rangeOutcome]

/-- Witness for C6: `20:10` is refused by the ordering test, `10:10` is accepted. -/
theorem ParseRange_order_test_witness :
    ParseRange Strconv.ParseFloat "20:10".toList = .error .invalidRange ∧
    ParseRange Strconv.ParseFloat "10:10".toList =
      .ok { Start := F64.ofInt 10, End := F64.ofInt 10, AlertOnInside := false } :=
  ⟨(ParseRange_order_test Strconv.ParseFloat "20:10".toList (F64.ofInt 20) (F64.ofInt 10)
      (by decide) (by decide)).1 (by decide),
   (ParseRange_order_test Strconv.ParseFloat "10:10".toList (F64.ofInt 10) (F64.ofInt 10)
      (by decide) (by decide)).2 (by decide)⟩

/-- C7: on every accepted input, `AlertOnInside` is true exactly when the trimmed input starts
with `@`, and the bounds are those of the grammar applied to the text that follows the `@` (to
the whole trimmed text when there is no `@`). When that following text is not empty and starts
neither with a blank nor with another `@`, `ParseRange` applied to it returns the same bounds
with `AlertOnInside = false`. -/
theorem ParseRange_marker (ParseFloat : GoString → Except NumError F64) (s : GoString)
    (r : Range) (h : ParseRange ParseFloat s = .ok r) :
    (r.AlertOnInside = true ↔ (Trim s [' ', '\n', '\r']).head? = some '@') ∧
    boundsOf ParseFloat (afterMarker (Trim s [' ', '\n', '\r'])) = .ok (r.Start, r.End) ∧
    (∀ rest : GoString, Trim s [' ', '\n', '\r'] = '@' :: rest → rest ≠ [] →
      (∀ c, rest.head? = some c → c ≠ '@' ∧ isBlank c = false) →
      ParseRange ParseFloat rest = .ok { r with AlertOnInside := false }) := by
  obtain ⟨_, hflag, hb⟩ := ParseRange_ok_inv ParseFloat s r h
  refine ⟨?_, hb, ?_⟩
  · rw [hflag]
    exact hasMarker_iff _
  · intro rest ht hne hhead
    have hlast : ∀ c, rest.getLast? = some c → c ∉ [' ', '\n', '\r'] := by
      intro c hc
      apply Trim_getLast s [' ', '\n', '\r'] c
      rw [ht]
      cases rest with
      | nil => exact absurd rfl hne
      | cons d ds => simpa [List.getLast?_cons_cons] using hc
    have hfirst : ∀ c, rest.head? = some c → c ∉ [' ', '\n', '\r'] := by
      intro c hc hmem
      have hbl := (hhead c hc).2
      simp only [List.mem_cons, List.mem_singleton, List.not_mem_nil, or_false] at hmem
      rcases hmem with rfl | rfl | rfl <;> simp [isBlank] at hbl
    have htrim := Trim_eq_self rest [' ', '\n', '\r'] hfirst hlast
    have hnm : rest.head? ≠ some '@' := fun hc => (hhead _ hc).1 rfl
    obtain ⟨ha, hm⟩ := afterMarker_of_not_marker rest hnm
    rw [ParseRange_of_bounds ParseFloat rest (by rw [htrim]; exact hne), htrim, ha, hm]
    have hb' : boundsOf ParseFloat rest = .ok (r.Start, r.End) := by
      rw [ht] at hb
      exact hb
    rw [hb']
    rfl

/-- Witness for C7 on the input `@10:20`: the flag is set, and `10:20` alone has the same
bounds. -/
theorem ParseRange_marker_witness :
    ((true = true ↔ (Trim "@10:20".toList [' ', '\n', '\r']).head? = some '@') ∧
     boundsOf Strconv.ParseFloat (afterMarker (Trim "@10:20".toList [' ', '\n', '\r'])) =
       .ok (F64.ofInt 10, F64.ofInt 20)) ∧
    ParseRange Strconv.ParseFloat "10:20".toList =
      .ok { Start := F64.ofInt 10, End := F64.ofInt 20, AlertOnInside := false } :=
  ⟨⟨(ParseRange_marker Strconv.ParseFloat "@10:20".toList
        ⟨F64.ofInt 10, F64.ofInt 20, true⟩ (by decide)).1,
    (ParseRange_marker Strconv.ParseFloat "@10:20".toList
        ⟨F64.ofInt 10, F64.ofInt 20, true⟩ (by decide)).2.1⟩,
   (ParseRange_marker Strconv.ParseFloat "@10:20".toList
        ⟨F64.ofInt 10, F64.ofInt 20, true⟩ (by decide)).2.2 "10:20".toList (by decide)
        (by decide) (by decide)⟩

/-- C8: when the text left after trimming and after the optional `@` is not empty, has no `:`
and is read by the number parser as a number `n >= 0`, `ParseRange` succeeds with `Start = 0`
and `End = n`; the flag tells whether the `@` was there. -/
theorem ParseRange_upper_only (ParseFloat : GoString → Except NumError F64) (s : GoString)
    (n : F64)
    (hne : afterMarker (Trim s [' ', '\n', '\r']) ≠ [])
    (hcolon : ':' ∉ afterMarker (Trim s [' ', '\n', '\r']))
    (hpf : ParseFloat (afterMarker (Trim s [' ', '\n', '\r'])) = .ok n)
    (hn : F64.le F64.zero n = true) :
    ParseRange ParseFloat s =
      .ok { Start := F64.zero, End := n,
            AlertOnInside := hasMarker (Trim s [' ', '\n', '\r']) } := by
  rw [ParseRange_of_bounds ParseFloat s (afterMarker_ne_nil _ hne)]
  simp [boundsOf, resolveBounds_no_colon _ _ hcolon, resolveUpper, hne, hpf,
    F64.lt_false_of_le _ _ hn, rangeOutcome]

/-- Witness for C8: `10` gives `Start = 0`, `End = 10`, `AlertOnInside = false`, and ` @10`
with a leading blank gives the same bounds with the flag set. -/
theorem ParseRange_upper_only_witness :
    ParseRange Strconv.ParseFloat "10".toList =
      .ok { Start := F64.zero, End := F64.ofInt 10, AlertOnInside := false } ∧
    ParseRange Strconv.ParseFloat " @10".toList =
      .ok { Start := F64.zero, End := F64.ofInt 10, AlertOnInside := true } :=
  ⟨ParseRange_upper_only Strconv.ParseFloat "10".toList (F64.ofInt 10)
      (by decide) (by decide) (by decide) (by decide),
   ParseRange_upper_only Strconv.ParseFloat " @10".toList (F64.ofInt 10)
      (by decide) (by decide) (by decide) (by decide)⟩

/-- C9: when the text left after trimming and after the optional `@` is `x:` with nothing
behind the colon, where `x` has no `:`, does not start with `~` and is read by the number parser
as `n`, `ParseRange` succeeds with `Start = n` and `End = +Inf`. -/
theorem ParseRange_lower_only (ParseFloat : GoString → Except NumError F64) (s x : GoString)
    (n : F64)
    (hform : afterMarker (Trim s [' ', '\n', '\r']) = x ++ [':'])
    (hcolon : ':' ∉ x) (htilde : x.head? ≠ some '~')
    (hpf : ParseFloat x = .ok n) :
    ParseRange ParseFloat s =
      .ok { Start := n, End := F64.Inf 1,
            AlertOnInside := hasMarker (Trim s [' ', '\n', '\r']) } := by
  have hne : afterMarker (Trim s [' ', '\n', '\r']) ≠ [] := by
    rw [hform]
    simp
  rw [ParseRange_of_bounds ParseFloat s (afterMarker_ne_nil _ hne), hform]
  have hhead : (x ++ [':']).head? ≠ some '~' := by
    cases x with
    | nil => simp
    | cons c cs => simpa using htilde
  rw [boundsOf, resolveBounds_first _ x [] hcolon, if_neg hhead, hpf]
  simp [resolveUpper, F64.lt_posInf_false, rangeOutcome]

/-- Witness for C9: `10:` gives `Start = 10` and `End = +Inf`. -/
theorem ParseRange_lower_only_witness :
    ParseRange Strconv.ParseFloat "10:".toList =
      .ok { Start := F64.ofInt 10, End := F64.Inf 1, AlertOnInside := false } :=
  ParseRange_lower_only Strconv.ParseFloat "10:".toList "10".toList (F64.ofInt 10)
    (by decide) (by decide) (by decide) (by decide)

/-- C10: when the text left after trimming and after the optional `@` is `~:y` with `y` not
empty and read by the number parser as `n`, `ParseRange` succeeds with `Start = -Inf` and
`End = n`. The number parser only sees `y`: with any other parser that reads `y` in the same
way the outcome is the same, so the `~` is never handed to it. -/
theorem ParseRange_tilde (ParseFloat : GoString → Except NumError F64) (s y : GoString)
    (n : F64)
    (hform : afterMarker (Trim s [' ', '\n', '\r']) = '~' :: ':' :: y)
    (hne : y ≠ []) (hpf : ParseFloat y = .ok n) :
    ParseRange ParseFloat s =
      .ok { Start := F64.Inf (-1), End := n,
            AlertOnInside := hasMarker (Trim s [' ', '\n', '\r']) } ∧
    ∀ other : GoString → Except NumError F64, other y = ParseFloat y →
      ParseRange other s = ParseRange ParseFloat s := by
  have hne' : afterMarker (Trim s [' ', '\n', '\r']) ≠ [] := by
    rw [hform]
    simp
  have key : ∀ p : GoString → Except NumError F64, p y = .ok n →
      ParseRange p s =
        .ok { Start := F64.Inf (-1), End := n,
              AlertOnInside := hasMarker (Trim s [' ', '\n', '\r']) } := by
    intro p hp
    rw [ParseRange_of_bounds p s (afterMarker_ne_nil _ hne'), hform]
    have hfirst := resolveBounds_first p ['~'] y (by decide)
    simp only [List.singleton_append, List.head?_cons, ↓reduceIte] at hfirst
    simp [boundsOf, hfirst, resolveUpper, hne, hp, F64.lt_negInf_false, rangeOutcome]
  refine ⟨key ParseFloat hpf, ?_⟩
  intro other ho
  rw [key ParseFloat hpf, key other (ho.trans hpf)]

/-- Witness for C10: `~:10` gives `Start = -Inf` and `End = 10`. -/
theorem ParseRange_tilde_witness :
    ParseRange Strconv.ParseFloat "~:10".toList =
      .ok { Start := F64.Inf (-1), End := F64.ofInt 10, AlertOnInside := false } :=
  (ParseRange_tilde Strconv.ParseFloat "~:10".toList "10".toList (F64.ofInt 10)
    (by decide) (by decide) (by decide)).1

/-! ## Rendering and parsing again -/

theorem isNumChar_props (c : Char) (h : isNumChar c = true) :
    c ≠ ':' ∧ c ≠ '@' ∧ c ≠ '~' ∧ c ∉ [' ', '\n', '\r'] := by
  refine ⟨?_, ?_, ?_, ?_⟩
  · rintro rfl
    exact absurd h (by decide)
  · rintro rfl
    exact absurd h (by decide)
  · rintro rfl
    exact absurd h (by decide)
  · intro hmem
    simp only [List.mem_cons, List.mem_singleton, List.not_mem_nil, or_false] at hmem
    rcases hmem with rfl | rfl | rfl <;> exact absurd h (by decide)

theorem numText_mem (x : GoString) (h : numText x = true) (c : Char) (hc : c ∈ x) :
    isNumChar c = true :=
  List.all_eq_true.mp h c hc

theorem numText_no_colon (x : GoString) (h : numText x = true) : ':' ∉ x :=
  fun hc => (isNumChar_props ':' (numText_mem x h ':' hc)).1 rfl

theorem numText_head (x : GoString) (h : numText x = true) (c : Char)
    (hc : x.head? = some c) : isNumChar c = true :=
  numText_mem x h c (List.mem_of_mem_head? hc)

theorem numText_getLast (x : GoString) (h : numText x = true) (c : Char)
    (hc : x.getLast? = some c) : isNumChar c = true :=
  numText_mem x h c (List.mem_of_mem_getLast? hc)

/-- `ParseRange` on a text made of an optional `@` and a body that starts neither with `@` nor
with a blank and does not end with a blank. -/
theorem ParseRange_marked (ParseFloat : GoString → Except NumError F64) (inv : Bool)
    (body : GoString) (hne : body ≠ [])
    (hhead : ∀ c, body.head? = some c → c ≠ '@' ∧ c ∉ [' ', '\n', '\r'])
    (hlast : ∀ c, body.getLast? = some c → c ∉ [' ', '\n', '\r']) :
    ParseRange ParseFloat ((if inv then ['@'] else []) ++ body) =
      rangeOutcome inv (boundsOf ParseFloat body) := by
  cases inv with
  | false =>
    simp only [Bool.false_eq_true, ↓reduceIte, List.nil_append]
    have htrim := Trim_eq_self body [' ', '\n', '\r'] (fun c hc => (hhead c hc).2) hlast
    have hnm : body.head? ≠ some '@' := fun hc => (hhead _ hc).1 rfl
    obtain ⟨ha, hm⟩ := afterMarker_of_not_marker body hnm
    rw [ParseRange_of_bounds ParseFloat body (by rw [htrim]; exact hne), htrim, ha, hm]
  | true =>
    simp only [↓reduceIte, List.singleton_append]
    have hlast' : ∀ c, ('@' :: body).getLast? = some c → c ∉ [' ', '\n', '\r'] := by
      intro c hc
      apply hlast c
      cases body with
      | nil => exact absurd rfl hne
      | cons d ds => simpa [List.getLast?_cons_cons] using hc
    have htrim := Trim_eq_self ('@' :: body) [' ', '\n', '\r']
      (fun c hc => by
        simp only [List.head?_cons, Option.some.injEq] at hc
        subst hc
        decide) hlast'
    rw [ParseRange_of_bounds ParseFloat ('@' :: body) (by rw [htrim]; simp), htrim]
    rfl

theorem F64.lt_congr_of_eq (a b c : F64) (h : F64.eq a b = true) : F64.lt c a = F64.lt c b := by
  simp only [F64.eq, Bool.and_eq_true, Bool.not_eq_true', decide_eq_true_eq] at h
  obtain ⟨⟨ha, hb⟩, hk⟩ := h
  simp [F64.lt, ha, hb, hk]

theorem F64.eq_symm (a b : F64) (h : F64.eq a b = true) : F64.eq b a = true := by
  simp only [F64.eq, Bool.and_eq_true, Bool.not_eq_true', decide_eq_true_eq] at h ⊢
  exact ⟨⟨h.1.2, h.1.1⟩, h.2.symm⟩

theorem F64.eq_self (a : F64) (h : F64.IsNaN a = false) : F64.eq a a = true := by
  simp [F64.eq, h]

/-- C2 as stated fails, whatever the number formatter is: the text `NaN` is accepted, its range
has `Start = 0` and `End = NaN`, `String` renders it as the empty string, and `ParseRange` does
not succeed on the empty string. -/
theorem ParseRange_String_counterexample :
    ¬ ∃ fmtPerfFloat : F64 → GoString,
      ∀ (s : GoString) (r : Range), ParseRange Strconv.ParseFloat s = .ok r →
        ∃ r' : Range, ParseRange Strconv.ParseFloat (r.String fmtPerfFloat) = .ok r' ∧
          r'.Start = r.Start ∧ r'.End = r.End ∧ r'.AlertOnInside = r.AlertOnInside := by
  rintro ⟨fmtPerfFloat, h⟩
  obtain ⟨r', hr', _⟩ := h "NaN".toList ⟨F64.zero, F64.NaN, false⟩ (by decide)
  have hs : Range.String fmtPerfFloat ⟨F64.zero, F64.NaN, false⟩ = [] := by
    simp [Range.String, F64.IsNaN_NaN, F64.IsNaN_zero, F64.ne, F64.eq_self]
  have hp : ParseRange Strconv.ParseFloat [] = .panic := by decide
  rw [hs, hp] at hr'
  exact absurd hr' (by simp)

/-- Rendering and parsing again, for any number parser and formatter: let `ParseRange` accept
`s` with the range `r`, let neither bound of `r` be NaN, and let the formatter write each bound
that `String` renders as a number text that the parser reads back as that bound (the text of
`End` not empty). Then `ParseRange` accepts `String(r)`, and the range it returns has the same
`End` and `AlertOnInside` and a `Start` equal (`==`) to that of `r`, the very same float unless
it is `-0`. -/
theorem String_roundtrip_of_readback (ParseFloat : GoString → Except NumError F64)
    (fmtPerfFloat : F64 → GoString) (s : GoString) (r : Range)
    (h : ParseRange ParseFloat s = .ok r)
    (hS : F64.IsNaN r.Start = false) (hE : F64.IsNaN r.End = false)
    (hfS : F64.ne r.Start F64.zero = true →
      numText (fmtPerfFloat r.Start) = true ∧ ParseFloat (fmtPerfFloat r.Start) = .ok r.Start)
    (hfE : fmtPerfFloat r.End ≠ [] ∧ numText (fmtPerfFloat r.End) = true ∧
      ParseFloat (fmtPerfFloat r.End) = .ok r.End) :
    ∃ r' : Range, ParseRange ParseFloat (r.String fmtPerfFloat) = .ok r' ∧
      F64.eq r'.Start r.Start = true ∧ (r.Start ≠ F64.negZero → r'.Start = r.Start) ∧
      r'.End = r.End ∧ r'.AlertOnInside = r.AlertOnInside := by
  obtain ⟨hEne, hEnum, hEpf⟩ := hfE
  have hlt := (boundsOf_ok_lt ParseFloat _ _ _ (ParseRange_ok_inv ParseFloat s r h).2.2).2
  have hElast : ∀ c, (fmtPerfFloat r.End).getLast? = some c → c ∉ [' ', '\n', '\r'] :=
    fun c hc => (isNumChar_props c (numText_getLast _ hEnum c hc)).2.2.2
  have hEhead : ∀ c, (fmtPerfFloat r.End).head? = some c →
      c ≠ '@' ∧ c ∉ [' ', '\n', '\r'] := fun c hc =>
    ⟨(isNumChar_props c (numText_head _ hEnum c hc)).2.1,
     (isNumChar_props c (numText_head _ hEnum c hc)).2.2.2⟩
  cases hren : F64.ne r.Start F64.zero with
  | false =>
    have heq : F64.eq r.Start F64.zero = true := by
      simpa [F64.ne] using hren
    have hstr : r.String fmtPerfFloat =
        (if r.AlertOnInside then ['@'] else []) ++ fmtPerfFloat r.End := by
      simp [Range.String, hren, hE]
    have hlt0 : F64.lt r.End F64.zero = false := by
      rw [← F64.lt_congr_of_eq _ _ _ heq]
      exact hlt
    have hsame : r.Start ≠ F64.negZero → F64.zero = r.Start := by
      intro hnz
      rcases (F64.eq_zero_iff r.Start).mp heq with h0 | h0
      · exact h0.symm
      · exact absurd h0 hnz
    refine ⟨⟨F64.zero, r.End, r.AlertOnInside⟩, ?_, F64.eq_symm _ _ heq, hsame, rfl, rfl⟩
    rw [hstr, ParseRange_marked ParseFloat _ _ hEne hEhead hElast]
    simp [boundsOf, resolveBounds_no_colon _ _ (numText_no_colon _ hEnum), resolveUpper, hEne,
      hEpf, hlt0, rangeOutcome]
  | true =>
    obtain ⟨hSnum, hSpf⟩ := hfS hren
    have hstr : r.String fmtPerfFloat =
        (if r.AlertOnInside then ['@'] else []) ++
          (fmtPerfFloat r.Start ++ ':' :: fmtPerfFloat r.End) := by
      simp [Range.String, hren, hS, hE]
    have hbne : fmtPerfFloat r.Start ++ ':' :: fmtPerfFloat r.End ≠ [] := by simp
    have hbhead : ∀ c, (fmtPerfFloat r.Start ++ ':' :: fmtPerfFloat r.End).head? = some c →
        c ≠ '@' ∧ c ≠ '~' ∧ c ∉ [' ', '\n', '\r'] := by
      intro c hc
      cases hx : fmtPerfFloat r.Start with
      | nil =>
        rw [hx] at hc
        simp only [List.nil_append, List.head?_cons, Option.some.injEq] at hc
        subst hc
        decide
      | cons d ds =>
        rw [hx] at hc
        simp only [List.cons_append, List.head?_cons, Option.some.injEq] at hc
        subst hc
        have hd := isNumChar_props d (numText_head _ hSnum d (by rw [hx]; rfl))
        exact ⟨hd.2.1, hd.2.2.1, hd.2.2.2⟩
    have hblast : ∀ c, (fmtPerfFloat r.Start ++ ':' :: fmtPerfFloat r.End).getLast? = some c →
        c ∉ [' ', '\n', '\r'] := by
      intro c hc
      apply hElast c
      have hsplit : fmtPerfFloat r.Start ++ ':' :: fmtPerfFloat r.End =
          (fmtPerfFloat r.Start ++ [':']) ++ fmtPerfFloat r.End := by simp
      rw [hsplit, List.getLast?_append_of_ne_nil _ hEne] at hc
      exact hc
    have hnt : (fmtPerfFloat r.Start ++ ':' :: fmtPerfFloat r.End).head? ≠ some '~' :=
      fun hc => (hbhead _ hc).2.1 rfl
    refine ⟨r, ?_, F64.eq_self _ hS, fun _ => rfl, rfl, rfl⟩
    rw [hstr, ParseRange_marked ParseFloat _ _ hbne
      (fun c hc => ⟨(hbhead c hc).1, (hbhead c hc).2.2⟩) hblast]
    rw [boundsOf, resolveBounds_first _ _ _ (numText_no_colon _ hSnum), if_neg hnt, hSpf]
    simp [resolveUpper, hEne, hEpf, hlt, rangeOutcome]

/-! ## The two parse errors -/

/-- C11 as stated fails: in `~abc:10` the text before the colon is neither the marker `~` nor
a number (the number parser refuses `~abc`), and still `ParseRange` accepts the input, with
`Start = -Inf` and `End = 10`. -/
theorem ParseRange_lower_error_counterexample :
    ¬ (∀ (s x y : GoString), afterMarker (Trim s [' ', '\n', '\r']) = x ++ ':' :: y →
        ':' ∉ x → x ≠ ['~'] → (∀ v, Strconv.ParseFloat x ≠ .ok v) →
        ∃ err, ParseRange Strconv.ParseFloat s = .error (.lowerLimit err)) := by
  intro h
  obtain ⟨err, herr⟩ := h "~abc:10".toList "~abc".toList "10".toList (by decide) (by decide)
    (by decide) (by
      intro v hv
      have hx : Strconv.ParseFloat "~abc".toList = .error .ErrSyntax := by decide
      rw [hx] at hv
      exact absurd hv (by simp))
  have hok : ParseRange Strconv.ParseFloat "~abc:10".toList =
      .ok ⟨F64.Inf (-1), F64.ofInt 10, false⟩ := by decide
  rw [hok] at herr
  exact absurd herr (by simp)

/-- C11, amended: when the text left after trimming and after the optional `@` has a `:`, and
the text `x` in front of the first `:` does not start with `~` and is refused by the number
parser with the error `err`, `ParseRange` fails with the lower-limit error that wraps `err`,
whatever follows the colon. -/
theorem ParseRange_lower_error (ParseFloat : GoString → Except NumError F64)
    (s x y : GoString) (err : NumError)
    (hform : afterMarker (Trim s [' ', '\n', '\r']) = x ++ ':' :: y)
    (hcolon : ':' ∉ x) (htilde : x.head? ≠ some '~')
    (hpf : ParseFloat x = .error err) :
    ParseRange ParseFloat s = .error (.lowerLimit err) := by
  have hne : afterMarker (Trim s [' ', '\n', '\r']) ≠ [] := by
    rw [hform]
    simp
  rw [ParseRange_of_bounds ParseFloat s (afterMarker_ne_nil _ hne), hform]
  have hhead : (x ++ ':' :: y).head? ≠ some '~' := by
    cases x with
    | nil => simp
    | cons c cs => simpa using htilde
  rw [boundsOf, resolveBounds_first _ x y hcolon, if_neg hhead, hpf]
  rfl

/-- Witness for the amended C11: `abc:10` and `abc:xyz` fail with the lower-limit error. -/
theorem ParseRange_lower_error_witness :
    ParseRange Strconv.ParseFloat "abc:10".toList = .error (.lowerLimit .ErrSyntax) ∧
    ParseRange Strconv.ParseFloat "abc:xyz".toList = .error (.lowerLimit .ErrSyntax) :=
  ⟨ParseRange_lower_error Strconv.ParseFloat "abc:10".toList "abc".toList "10".toList
      .ErrSyntax (by decide) (by decide) (by decide) (by decide),
   ParseRange_lower_error Strconv.ParseFloat "abc:xyz".toList "abc".toList "xyz".toList
      .ErrSyntax (by decide) (by decide) (by decide) (by decide)⟩

/-- C12: let `y` be the upper-bound text of the input (the whole text left after trimming and
after the optional `@` when it has no `:`, else what follows the first `:`), and let the lower
bound resolve: it is absent, or the text in front of the colon starts with `~`, or the number
parser accepts it. When `y` is not empty and the number parser refuses it with `err`,
`ParseRange` fails with the upper-limit error that wraps `err`. -/
theorem ParseRange_upper_error (ParseFloat : GoString → Except NumError F64)
    (s y : GoString) (err : NumError)
    (hlow : (':' ∉ y ∧ afterMarker (Trim s [' ', '\n', '\r']) = y) ∨
      ∃ x, afterMarker (Trim s [' ', '\n', '\r']) = x ++ ':' :: y ∧ ':' ∉ x ∧
        (x.head? = some '~' ∨ ∃ a, ParseFloat x = .ok a))
    (hy : y ≠ []) (hpf : ParseFloat y = .error err) :
    ParseRange ParseFloat s = .error (.upperLimit err) := by
  have hup : ∀ a, resolveUpper ParseFloat a y = .error (.upperLimit err) := by
    intro a
    simp [resolveUpper, hy, hpf]
  rcases hlow with ⟨hcolon, hform⟩ | ⟨x, hform, hcolon, hx⟩
  · have hne : afterMarker (Trim s [' ', '\n', '\r']) ≠ [] := by
      rw [hform]
      exact hy
    rw [ParseRange_of_bounds ParseFloat s (afterMarker_ne_nil _ hne), hform, boundsOf,
      resolveBounds_no_colon _ _ hcolon, hup]
    rfl
  · have hne : afterMarker (Trim s [' ', '\n', '\r']) ≠ [] := by
      rw [hform]
      simp
    rw [ParseRange_of_bounds ParseFloat s (afterMarker_ne_nil _ hne), hform, boundsOf,
      resolveBounds_first _ x y hcolon]
    by_cases hhead : (x ++ ':' :: y).head? = some '~'
    · rw [if_pos hhead, hup]
      rfl
    · rw [if_neg hhead]
      rcases hx with hx | ⟨a, ha⟩
      · exfalso
        apply hhead
        cases x with
        | nil => simp at hx
        | cons c cs => simpa using hx
      · rw [ha]
        simp only [hup]
        rfl

/-- Witness for C12: `abc` (no colon), `10:abc` and `~:abc` fail with the upper-limit error. -/
theorem ParseRange_upper_error_witness :
    ParseRange Strconv.ParseFloat "abc".toList = .error (.upperLimit .ErrSyntax) ∧
    ParseRange Strconv.ParseFloat "10:abc".toList = .error (.upperLimit .ErrSyntax) ∧
    ParseRange Strconv.ParseFloat "~:abc".toList = .error (.upperLimit .ErrSyntax) :=
  ⟨ParseRange_upper_error Strconv.ParseFloat "abc".toList "abc".toList .ErrSyntax
      (Or.inl (by decide)) (by decide) (by decide),
   ParseRange_upper_error Strconv.ParseFloat "10:abc".toList "abc".toList .ErrSyntax
      (Or.inr ⟨"10".toList, by decide, by decide, Or.inr ⟨F64.ofInt 10, by decide⟩⟩)
      (by decide) (by decide),
   ParseRange_upper_error Strconv.ParseFloat "~:abc".toList "abc".toList .ErrSyntax
      (Or.inr ⟨"~".toList, by decide, by decide, Or.inl (by decide)⟩)
      (by decide) (by decide)⟩

/-! ## The renderer -/

/-- C13: `String(r)` is `@` exactly when `AlertOnInside` is set, then the formatted `Start`
followed by `:` exactly when `Start != 0` and `Start` is not NaN, then the formatted `End`
exactly when `End` is not NaN. A `Start` of zero (either zero, however it was set) is left
out. -/
theorem String_layout (fmtPerfFloat : F64 → GoString) (r : Range) :
    r.String fmtPerfFloat =
      (if r.AlertOnInside = true then ['@'] else []) ++
      (if F64.ne r.Start F64.zero = true ∧ F64.IsNaN r.Start = false then
        fmtPerfFloat r.Start ++ [':'] else []) ++
      (if F64.IsNaN r.End = false then fmtPerfFloat r.End else []) ∧
    (∀ (e : F64) (inv : Bool),
      Range.String fmtPerfFloat ⟨F64.zero, e, inv⟩ =
        (if inv = true then ['@'] else []) ++
        (if F64.IsNaN e = false then fmtPerfFloat e else []) ∧
      Range.String fmtPerfFloat ⟨F64.negZero, e, inv⟩ =
        (if inv = true then ['@'] else []) ++
        (if F64.IsNaN e = false then fmtPerfFloat e else [])) := by
  constructor
  · unfold Range.String
    cases r.AlertOnInside <;> cases F64.ne r.Start F64.zero <;> cases F64.IsNaN r.Start <;>
      cases F64.IsNaN r.End <;> simp
  · intro e inv
    have h0 : F64.ne F64.zero F64.zero = false := by decide
    have h1 : F64.ne F64.negZero F64.zero = false := by decide
    constructor
    · unfold Range.String
      cases inv <;> cases F64.IsNaN e <;> simp [h0]
    · unfold Range.String
      cases inv <;> cases F64.IsNaN e <;> simp [h1]

/-- C14 fails on the code: `String` has no case for an infinite `End`. With `End = +Inf` it
appends the text of the number formatter for `+Inf`, whatever that is; with the fixed-point
formatter the range parsed from `10:` is rendered as `10:+Inf`, not as `10:`. -/
theorem String_posInf_end (fmtPerfFloat' : F64 → GoString) (start : F64) (inv : Bool) :
    Range.String fmtPerfFloat' ⟨start, F64.Inf 1, inv⟩ =
      (if inv = true then ['@'] else []) ++
      (if F64.ne start F64.zero = true ∧ F64.IsNaN start = false then
        fmtPerfFloat' start ++ [':'] else []) ++
      fmtPerfFloat' (F64.Inf 1) ∧
    ParseRange Strconv.ParseFloat "10:".toList = .ok ⟨F64.ofInt 10, F64.Inf 1, false⟩ ∧
    Range.String fmtPerfFloat ⟨F64.ofInt 10, F64.Inf 1, false⟩ = "10:+Inf".toList := by
  refine ⟨?_, by decide, by decide⟩
  unfold Range.String
  cases inv <;> cases F64.ne start F64.zero <;> cases F64.IsNaN start <;>
    simp [F64.IsNaN_Inf]

/-- C15 fails on the code: `String` has no case for `Start = -Inf`. It hands `-Inf` to the
number formatter like any other non-zero bound; with the fixed-point formatter the range parsed
from `~:10` is rendered as `-Inf:10`, not as `~:10`. -/
theorem String_negInf_start (fmtPerfFloat' : F64 → GoString) (e : F64) (inv : Bool) :
    Range.String fmtPerfFloat' ⟨F64.Inf (-1), e, inv⟩ =
      (if inv = true then ['@'] else []) ++
      (fmtPerfFloat' (F64.Inf (-1)) ++ [':']) ++
      (if F64.IsNaN e = false then fmtPerfFloat' e else []) ∧
    ParseRange Strconv.ParseFloat "~:10".toList = .ok ⟨F64.Inf (-1), F64.ofInt 10, false⟩ ∧
    Range.String fmtPerfFloat ⟨F64.Inf (-1), F64.ofInt 10, false⟩ = "-Inf:10".toList := by
  refine ⟨?_, by decide, by decide⟩
  have h0 : F64.ne (F64.Inf (-1)) F64.zero = true := by decide
  unfold Range.String
  cases inv <;> cases F64.IsNaN e <;> simp [F64.IsNaN_Inf, h0]

/-- C16: when `End` is NaN, `Check` takes the outside branch at every value and returns the
negation of `AlertOnInside`. -/
theorem Check_nan_end (r : Range) (v : F64) (h : F64.IsNaN r.End = true) :
    r.Check v = !r.AlertOnInside := by
  simp [Range.Check, F64.le_nan_right _ _ h]

/-- Witness for C16: the range with bounds 0 and NaN raises the alert at 5 (normal
semantics), as it does at every value. -/
theorem Check_nan_end_witness :
    Range.Check ⟨F64.zero, F64.NaN, false⟩ (F64.ofInt 5) = true :=
  Check_nan_end ⟨F64.zero, F64.NaN, false⟩ (F64.ofInt 5) (by decide)

/-! ## Blanks around the input -/

theorem dropWhile_append_all {p : Char → Bool} (l u : GoString) (h : ∀ c ∈ l, p c = true) :
    (l ++ u).dropWhile p = u.dropWhile p := by
  induction l with
  | nil => rfl
  | cons c cs ih =>
    have hc : p c = true := h c (List.mem_cons_self _ _)
    rw [List.cons_append, List.dropWhile_cons, if_pos hc]
    exact ih (fun d hd => h d (List.mem_cons_of_mem _ hd))

theorem dropWhile_append_stop {p : Char → Bool} (a b : GoString)
    (h : ∀ c, b.head? = some c → p c = false) :
    (a ++ b).dropWhile p = a.dropWhile p ++ b := by
  induction a with
  | nil =>
    cases b with
    | nil => rfl
    | cons c cs =>
      have hc := h c rfl
      simp [List.dropWhile_cons, hc]
  | cons c cs ih =>
    rw [List.cons_append, List.dropWhile_cons, List.dropWhile_cons]
    by_cases hc : p c = true
    · rw [if_pos hc, if_pos hc]
      exact ih
    · rw [if_neg hc, if_neg hc]
      rfl

theorem dropWhile_append_of_ne_nil {p : Char → Bool} (a b : GoString)
    (h : a.dropWhile p ≠ []) : (a ++ b).dropWhile p = a.dropWhile p ++ b := by
  induction a with
  | nil => exact absurd rfl h
  | cons c cs ih =>
    rw [List.cons_append, List.dropWhile_cons, List.dropWhile_cons]
    by_cases hc : p c = true
    · rw [if_pos hc, if_pos hc]
      apply ih
      rw [List.dropWhile_cons, if_pos hc] at h
      exact h
    · rw [if_neg hc, if_neg hc]
      rfl

theorem TrimRight_append_all (u t cutset : GoString) (h : ∀ c ∈ t, c ∈ cutset) :
    TrimRight (u ++ t) cutset = TrimRight u cutset := by
  unfold TrimRight
  rw [List.reverse_append, dropWhile_append_all]
  intro c hc
  simpa using h c (List.mem_reverse.mp hc)

/-- The first and last characters outside the cutset stay where they are: blanks in front of
the text and behind it do not change what `Trim` returns. -/
theorem Trim_append_blank (l s t cutset : GoString) (hl : ∀ c ∈ l, c ∈ cutset)
    (ht : ∀ c ∈ t, c ∈ cutset) : Trim (l ++ s ++ t) cutset = Trim s cutset := by
  unfold Trim
  have h1 : TrimLeft (l ++ s ++ t) cutset = TrimLeft (s ++ t) cutset := by
    unfold TrimLeft
    rw [List.append_assoc, dropWhile_append_all]
    intro c hc
    simpa using hl c hc
  rw [h1]
  by_cases hs : TrimLeft s cutset = []
  · have hall : ∀ c ∈ s, c ∈ cutset := by
      intro c hc
      have := List.dropWhile_eq_nil_iff.mp hs c hc
      simpa using this
    have h2 : TrimLeft (s ++ t) cutset = [] := by
      unfold TrimLeft
      apply List.dropWhile_eq_nil_iff.mpr
      intro c hc
      rcases List.mem_append.mp hc with h | h
      · simpa using hall c h
      · simpa using ht c h
    rw [h2, hs]
  · have h2 : TrimLeft (s ++ t) cutset = TrimLeft s cutset ++ t := by
      unfold TrimLeft at hs ⊢
      exact dropWhile_append_of_ne_nil s t hs
    rw [h2, TrimRight_append_all _ _ _ ht]

theorem isBlank_mem (c : Char) (h : isBlank c = true) : c ∈ [' ', '\n', '\r'] := by
  simp only [isBlank, Bool.or_eq_true, beq_iff_eq] at h
  simp only [List.mem_cons, List.mem_singleton, List.not_mem_nil, or_false]
  tauto

/-- C18: blanks (spaces, line feeds, carriage returns) in front of the input and behind it never
change the outcome of `ParseRange`: the same range, the same error or the same panic. -/
theorem ParseRange_blank_invariant (ParseFloat : GoString → Except NumError F64)
    (l s t : GoString) (hl : ∀ c ∈ l, isBlank c = true) (ht : ∀ c ∈ t, isBlank c = true) :
    ParseRange ParseFloat (l ++ s ++ t) = ParseRange ParseFloat s := by
  rw [ParseRange_eq, ParseRange_eq,
    Trim_append_blank l s t _ (fun c hc => isBlank_mem c (hl c hc))
      (fun c hc => isBlank_mem c (ht c hc))]

/-- Witness for C18: `10:20` wrapped in blanks parses like `10:20`. -/
theorem ParseRange_blank_invariant_witness :
    ParseRange Strconv.ParseFloat (" \n".toList ++ "10:20".toList ++ "\r ".toList) =
      ParseRange Strconv.ParseFloat "10:20".toList :=
  ParseRange_blank_invariant Strconv.ParseFloat " \n".toList "10:20".toList "\r ".toList
    (by decide) (by decide)

/-! ## Index and slice expressions stay in bounds -/

theorem rangeOutcome_ne_panic (inv : Bool) (b : Except ParseError (F64 × F64)) :
    rangeOutcome inv b ≠ .panic := by
  cases b with
  | error err => simp [rangeOutcome]
  | ok ab =>
    obtain ⟨a, b⟩ := ab
    simp [rangeOutcome]

/-- C19: when the input is not empty after trimming, no index or slice expression of
`ParseRange` is out of bounds, so the call does not panic. The marker test only needs a
non-empty string, the lower-limit block (first-character test of line 49 and both slices) never
panics on any string because it indexes only after a `:` was found, and `@` alone yields the
default bounds with `AlertOnInside = true`. -/
theorem ParseRange_no_panic (ParseFloat : GoString → Except NumError F64) (s : GoString)
    (h : Trim s [' ', '\n', '\r'] ≠ []) :
    ParseRange ParseFloat s ≠ .panic ∧
    (∀ v : Locals, v.rangeStr ≠ [] → checkInverted v ≠ .panic) ∧
    (∀ v : Locals, parseLower ParseFloat v ≠ .panic) ∧
    ParseRange ParseFloat ['@'] = .ok ⟨F64.zero, F64.Inf 1, true⟩ := by
  refine ⟨?_, ?_, ?_, ?_⟩
  · rw [ParseRange_of_bounds ParseFloat s h]
    exact rangeOutcome_ne_panic _ _
  · intro v hv
    obtain ⟨t, rs⟩ := v
    cases rs with
    | nil => exact absurd rfl hv
    | cons c cs =>
      rw [checkInverted_cons]
      simp
  · intro v
    obtain ⟨t, rs⟩ := v
    rcases colon_cases rs with hc | ⟨x, y, rfl, hx⟩
    · rw [lower_stage_none ParseFloat _ hc]
      simp
    · rw [lower_stage_first ParseFloat t x y hx]
      split
      · simp
      · cases ParseFloat x <;> simp
  · have ht : Trim ['@'] [' ', '\n', '\r'] = ['@'] := by decide
    rw [ParseRange_of_bounds ParseFloat ['@'] (by rw [ht]; simp), ht]
    simp [hasMarker, afterMarker, boundsOf, resolveBounds_no_colon, resolveUpper,
      F64.lt_posInf_false, rangeOutcome]

/-- Witness for C19 on the input `@10:20`. -/
theorem ParseRange_no_panic_witness :
    ParseRange Strconv.ParseFloat "@10:20".toList ≠ .panic :=
  (ParseRange_no_panic Strconv.ParseFloat "@10:20".toList (by decide)).1

/-! ## Text between the marker `~` and the colon -/

theorem TrimRight_append_stop (u y cutset : GoString)
    (h : ∀ c, u.getLast? = some c → c ∉ cutset) :
    TrimRight (u ++ y) cutset = u ++ TrimRight y cutset := by
  unfold TrimRight
  rw [List.reverse_append, dropWhile_append_stop, List.reverse_append, List.reverse_reverse]
  intro c hc
  have := h c (by simpa using hc)
  simpa using this

/-- C20: in an input `~x:y`, where `x` has no `:`, the text `x` between the marker and the
colon is ignored: the outcome is the one of `~:y`. -/
theorem ParseRange_tilde_ignores (ParseFloat : GoString → Except NumError F64)
    (x y : GoString) (hx : ':' ∉ x) :
    ParseRange ParseFloat ('~' :: x ++ ':' :: y) = ParseRange ParseFloat ('~' :: ':' :: y) := by
  have key : ∀ z : GoString, ':' ∉ z →
      ParseRange ParseFloat ('~' :: z ++ ':' :: y) =
        rangeOutcome false
          (match resolveUpper ParseFloat (F64.Inf (-1)) (TrimRight y [' ', '\n', '\r']) with
            | .error err => .error err
            | .ok (a, b) => if F64.lt b a then .error .invalidRange else .ok (a, b)) := by
    intro z hz
    have hsplit : '~' :: z ++ ':' :: y = ('~' :: z ++ [':']) ++ y := by simp
    have hleft : TrimLeft ('~' :: z ++ ':' :: y) [' ', '\n', '\r'] = '~' :: z ++ ':' :: y :=
      TrimLeft_eq_self _ _ (fun c hc => by
        simp only [List.cons_append, List.head?_cons, Option.some.injEq] at hc
        subst hc
        decide)
    have htrim : Trim ('~' :: z ++ ':' :: y) [' ', '\n', '\r'] =
        '~' :: z ++ ':' :: TrimRight y [' ', '\n', '\r'] := by
      unfold Trim
      rw [hleft, hsplit, TrimRight_append_stop]
      · simp
      · intro c hc
        have hc' : c = ':' := by
          have : ('~' :: z ++ [':']).getLast? = some ':' := by
            rw [show '~' :: z ++ [':'] = ('~' :: z) ++ [':'] from rfl, List.getLast?_append]
            rfl
          rw [this] at hc
          exact (Option.some.inj hc).symm
        subst hc'
        decide
    have hz' : ':' ∉ '~' :: z := by
      simp only [List.mem_cons, not_or]
      exact ⟨by decide, hz⟩
    rw [ParseRange_of_bounds ParseFloat _ (by rw [htrim]; simp), htrim]
    have hm := afterMarker_of_not_marker
      ('~' :: z ++ ':' :: TrimRight y [' ', '\n', '\r']) (by simp)
    rw [hm.1, hm.2, boundsOf]
    have hfirst := resolveBounds_first ParseFloat ('~' :: z)
      (TrimRight y [' ', '\n', '\r']) hz'
    simp only [List.cons_append, List.head?_cons, ↓reduceIte] at hfirst
    simp only [List.cons_append, hfirst]
  have h1 := key x hx
  have h2 := key [] (by simp)
  simp only [List.nil_append] at h2
  rw [h1]
  exact h2.symm

/-- Witness for C20: `~abc:10` is accepted like `~:10`, with `Start = -Inf` and `End = 10`. -/
theorem ParseRange_tilde_ignores_witness :
    ParseRange Strconv.ParseFloat "~abc:10".toList =
      ParseRange Strconv.ParseFloat "~:10".toList ∧
    ParseRange Strconv.ParseFloat "~abc:10".toList =
      .ok ⟨F64.Inf (-1), F64.ofInt 10, false⟩ :=
  ⟨ParseRange_tilde_ignores Strconv.ParseFloat "abc".toList "10".toList (by decide),
   by decide⟩

/-! ## Rounding to binary64 is monotone -/

theorem log2Loop_spec (fuel n : Nat) (h : n ≤ fuel) (hn : 0 < n) :
    2 ^ F64.log2Loop fuel n ≤ n ∧ n < 2 ^ (F64.log2Loop fuel n + 1) := by
  induction fuel generalizing n with
  | zero => omega
  | succ f ih =>
    unfold F64.log2Loop
    split
    · simp
      omega
    · have ih' := ih (n / 2) (by omega) (by omega)
      have e1 : 2 ^ (F64.log2Loop f (n / 2) + 1) = 2 * 2 ^ F64.log2Loop f (n / 2) := by
        rw [pow_succ]; ring
      have e2 : 2 ^ (F64.log2Loop f (n / 2) + 1 + 1) =
          4 * 2 ^ F64.log2Loop f (n / 2) := by
        rw [pow_succ, pow_succ]; ring
      rw [e1] at ih' ⊢
      rw [e2]
      omega

theorem log2_spec (n : Nat) (hn : 0 < n) :
    2 ^ F64.log2 n ≤ n ∧ n < 2 ^ (F64.log2 n + 1) :=
  log2Loop_spec n n (Nat.le_refl n) hn

/-- Comparison of the scaled integers of `F64.round` as a comparison of `num / den` with a
multiple of a power of two. -/
theorem scaled_le_iff (num den c : Nat) (hden : 0 < den) (e : Int) :
    c * (den * 2 ^ e.toNat) ≤ num * 2 ^ (-e).toNat ↔
      (c : ℚ) * (2 : ℚ) ^ e ≤ (num : ℚ) / (den : ℚ) := by
  have hd : (0 : ℚ) < (den : ℚ) := by exact_mod_cast hden
  rcases le_or_lt 0 e with he | he
  · obtain ⟨t, rfl⟩ := Int.eq_ofNat_of_zero_le he
    have h1 : (-(t : Int)).toNat = 0 := by omega
    simp only [Int.toNat_ofNat, h1, pow_zero, mul_one, zpow_natCast]
    rw [le_div_iff₀ hd]
    constructor
    · intro h
      have : ((c * (den * 2 ^ t) : Nat) : ℚ) ≤ (num : ℚ) := by exact_mod_cast h
      push_cast at this
      linarith
    · intro h
      have : ((c * (den * 2 ^ t) : Nat) : ℚ) ≤ (num : ℚ) := by
        push_cast
        linarith
      exact_mod_cast this
  · obtain ⟨t, rfl⟩ : ∃ t : Nat, e = -(t : Int) := ⟨(-e).toNat, by omega⟩
    have h1 : (-(t : Int)).toNat = 0 := by omega
    have h2 : (- -(t : Int)).toNat = t := by omega
    simp only [h1, h2, pow_zero, mul_one, zpow_neg, zpow_natCast]
    have hp : (0 : ℚ) < (2 : ℚ) ^ t := by positivity
    rw [le_div_iff₀ hd, ← div_eq_mul_inv, div_mul_eq_mul_div, div_le_iff₀ hp]
    constructor
    · intro h
      have : ((c * den : Nat) : ℚ) ≤ ((num * 2 ^ t : Nat) : ℚ) := by exact_mod_cast h
      push_cast at this
      linarith
    · intro h
      have : ((c * den : Nat) : ℚ) ≤ ((num * 2 ^ t : Nat) : ℚ) := by
        push_cast
        linarith
      exact_mod_cast this

theorem scaled_lt_iff (num den c : Nat) (hden : 0 < den) (e : Int) :
    num * 2 ^ (-e).toNat < c * (den * 2 ^ e.toNat) ↔
      (num : ℚ) / (den : ℚ) < (c : ℚ) * (2 : ℚ) ^ e := by
  rw [← not_le, ← not_le, scaled_le_iff num den c hden e]

/-- The exponent of `F64.round` comes from the binary logarithm of `num / den`. -/
theorem binExp_spec (num den : Nat) (hnum : 0 < num) (hden : 0 < den) :
    ∃ fl : Int, F64.binExp num den = max (fl - 52) (-1074) ∧
      (2 : ℚ) ^ fl ≤ (num : ℚ) / (den : ℚ) ∧ (num : ℚ) / (den : ℚ) < (2 : ℚ) ^ (fl + 1) := by
  obtain ⟨ha1, ha2⟩ := log2_spec num hnum
  obtain ⟨hb1, hb2⟩ := log2_spec den hden
  have hd : (0 : ℚ) < (den : ℚ) := by exact_mod_cast hden
  have qa1 : (2 : ℚ) ^ (F64.log2 num) ≤ (num : ℚ) := by exact_mod_cast ha1
  have qa2 : (num : ℚ) < (2 : ℚ) ^ (F64.log2 num + 1) := by exact_mod_cast ha2
  have qb1 : (2 : ℚ) ^ (F64.log2 den) ≤ (den : ℚ) := by exact_mod_cast hb1
  have qb2 : (den : ℚ) < (2 : ℚ) ^ (F64.log2 den + 1) := by exact_mod_cast hb2
  have two : (2 : ℚ) ≠ 0 := by norm_num
  have hpb : (0 : ℚ) < (2 : ℚ) ^ (F64.log2 den) := by positivity
  have hpb1 : (0 : ℚ) < (2 : ℚ) ^ (F64.log2 den + 1) := by positivity
  -- bounds of the quotient from the bounds of numerator and denominator
  have up : (num : ℚ) / (den : ℚ) <
      (2 : ℚ) ^ ((F64.log2 num : Int) - (F64.log2 den : Int) + 1) := by
    have e1 : (2 : ℚ) ^ ((F64.log2 num : Int) - (F64.log2 den : Int) + 1) =
        (2 : ℚ) ^ (F64.log2 num + 1) / (2 : ℚ) ^ (F64.log2 den) := by
      rw [show (F64.log2 num : Int) - (F64.log2 den : Int) + 1 =
        ((F64.log2 num + 1 : Nat) : Int) - ((F64.log2 den : Nat) : Int) by push_cast; ring,
        zpow_sub₀ two, zpow_natCast, zpow_natCast]
    rw [e1, div_lt_div_iff₀ hd hpb]
    calc (num : ℚ) * (2 : ℚ) ^ (F64.log2 den)
        ≤ (num : ℚ) * (den : ℚ) := by
          apply mul_le_mul_of_nonneg_left qb1
          positivity
      _ < (2 : ℚ) ^ (F64.log2 num + 1) * (den : ℚ) := by
          apply mul_lt_mul_of_pos_right qa2 hd
  have low : (2 : ℚ) ^ ((F64.log2 num : Int) - (F64.log2 den : Int) - 1) ≤
      (num : ℚ) / (den : ℚ) := by
    have e1 : (2 : ℚ) ^ ((F64.log2 num : Int) - (F64.log2 den : Int) - 1) =
        (2 : ℚ) ^ (F64.log2 num) / (2 : ℚ) ^ (F64.log2 den + 1) := by
      rw [show (F64.log2 num : Int) - (F64.log2 den : Int) - 1 =
        ((F64.log2 num : Nat) : Int) - ((F64.log2 den + 1 : Nat) : Int) by push_cast; ring,
        zpow_sub₀ two, zpow_natCast, zpow_natCast]
    rw [e1, div_le_div_iff₀ hpb1 hd]
    calc (2 : ℚ) ^ (F64.log2 num) * (den : ℚ)
        ≤ (num : ℚ) * (den : ℚ) := by
          apply mul_le_mul_of_nonneg_right qa1
          positivity
      _ ≤ (num : ℚ) * (2 : ℚ) ^ (F64.log2 den + 1) := by
          apply mul_le_mul_of_nonneg_left (le_of_lt qb2)
          positivity
  by_cases hT : den * 2 ^ ((F64.log2 num : Int) - (F64.log2 den : Int)).toNat ≤
      num * 2 ^ (-((F64.log2 num : Int) - (F64.log2 den : Int))).toNat
  · refine ⟨(F64.log2 num : Int) - (F64.log2 den : Int), ?_, ?_, up⟩
    · simp only [F64.binExp, hT, ↓reduceIte]
    · have := (scaled_le_iff num den 1 hden _).mp (by rw [one_mul]; exact hT)
      rw [Nat.cast_one, one_mul] at this
      exact this
  · refine ⟨(F64.log2 num : Int) - (F64.log2 den : Int) - 1, ?_, low, ?_⟩
    · simp only [F64.binExp, hT, ↓reduceIte]
    · have := (scaled_lt_iff num den 1 hden _).mp (by rw [one_mul]; exact not_le.mp hT)
      rw [Nat.cast_one, one_mul] at this
      rw [show (F64.log2 num : Int) - (F64.log2 den : Int) - 1 + 1 =
        (F64.log2 num : Int) - (F64.log2 den : Int) by ring]
      exact this

/-- The scaled quotient of `F64.round` has at most 53 bits, and exactly 53 bits above the
subnormal range. -/
theorem binExp_bounds (num den : Nat) (hnum : 0 < num) (hden : 0 < den) :
    -1074 ≤ F64.binExp num den ∧
    num * 2 ^ (-(F64.binExp num den)).toNat <
      9007199254740992 * (den * 2 ^ (F64.binExp num den).toNat) ∧
    (-1074 < F64.binExp num den →
      4503599627370496 * (den * 2 ^ (F64.binExp num den).toNat) ≤
        num * 2 ^ (-(F64.binExp num den)).toNat) := by
  obtain ⟨fl, he, h1, h2⟩ := binExp_spec num den hnum hden
  have two : (2 : ℚ) ≠ 0 := by norm_num
  have one2 : (1 : ℚ) ≤ 2 := by norm_num
  refine ⟨by rw [he]; exact le_max_right _ _, ?_, ?_⟩
  · rw [scaled_lt_iff num den _ hden]
    have hle : fl + 1 ≤ F64.binExp num den + 53 := by
      rw [he]
      have := le_max_left (fl - 52) (-1074)
      omega
    calc (num : ℚ) / (den : ℚ) < (2 : ℚ) ^ (fl + 1) := h2
      _ ≤ (2 : ℚ) ^ (F64.binExp num den + 53) := zpow_le_zpow_right₀ one2 hle
      _ = ((9007199254740992 : Nat) : ℚ) * (2 : ℚ) ^ (F64.binExp num den) := by
          rw [zpow_add₀ two]
          norm_num
          ring
  · intro hlt
    have hfl : F64.binExp num den = fl - 52 := by
      rw [he] at hlt ⊢
      rcases max_cases (fl - 52) (-1074) with ⟨h, _⟩ | ⟨h, _⟩
      · exact h
      · rw [h] at hlt
        omega
    rw [scaled_le_iff num den _ hden]
    calc ((4503599627370496 : Nat) : ℚ) * (2 : ℚ) ^ (F64.binExp num den)
        = (2 : ℚ) ^ fl := by
          rw [hfl, zpow_sub₀ two]
          norm_num
          field_simp
      _ ≤ (num : ℚ) / (den : ℚ) := h1

theorem roundHalfEven_ge (n d : Nat) : n / d ≤ Fmt.roundHalfEven n d := by
  unfold Fmt.roundHalfEven
  simp only
  split <;> omega

theorem roundHalfEven_le (n d : Nat) : Fmt.roundHalfEven n d ≤ n / d + 1 := by
  unfold Fmt.roundHalfEven
  simp only
  split <;> omega

theorem roundHalfEven_mono (n1 n2 d : Nat) (hd : 0 < d) (h : n1 ≤ n2) :
    Fmt.roundHalfEven n1 d ≤ Fmt.roundHalfEven n2 d := by
  have hq : n1 / d ≤ n2 / d := Nat.div_le_div_right h
  rcases Nat.lt_or_eq_of_le hq with hlt | heq
  · calc Fmt.roundHalfEven n1 d ≤ n1 / d + 1 := roundHalfEven_le n1 d
      _ ≤ n2 / d := hlt
      _ ≤ Fmt.roundHalfEven n2 d := roundHalfEven_ge n2 d
  · have e1 := Nat.div_add_mod n1 d
    have e2 := Nat.div_add_mod n2 d
    have r1 := Nat.mod_lt n1 hd
    have r2 := Nat.mod_lt n2 hd
    rw [heq] at e1
    unfold Fmt.roundHalfEven
    simp only
    rw [heq]
    generalize d * (n2 / d) = p at e1 e2
    split <;> split <;> omega

/-- The exponent of `F64.round` grows with the numerator. -/
theorem binExp_mono (num1 num2 den : Nat) (h1 : 0 < num1) (h : num1 ≤ num2) (hden : 0 < den) :
    F64.binExp num1 den ≤ F64.binExp num2 den := by
  obtain ⟨fl1, he1, l1, _⟩ := binExp_spec num1 den h1 hden
  obtain ⟨fl2, he2, _, u2⟩ := binExp_spec num2 den (by omega) hden
  have hd : (0 : ℚ) < (den : ℚ) := by exact_mod_cast hden
  have hq : (num1 : ℚ) / (den : ℚ) ≤ (num2 : ℚ) / (den : ℚ) := by
    apply div_le_div_of_nonneg_right _ (le_of_lt hd)
    exact_mod_cast h
  have hlt : (2 : ℚ) ^ fl1 < (2 : ℚ) ^ (fl2 + 1) := lt_of_le_of_lt (le_trans l1 hq) u2
  have hfl : fl1 < fl2 + 1 := (zpow_lt_zpow_iff_right₀ (by norm_num : (1 : ℚ) < 2)).mp hlt
  rw [he1, he2]
  omega

/-- The rounded magnitude grows with the numerator. -/
theorem roundKey_mono (num1 num2 den : Nat) (hden : 0 < den) (h : num1 ≤ num2) :
    F64.roundKey num1 den ≤ F64.roundKey num2 den := by
  by_cases h0 : num1 = 0
  · simp [F64.roundKey, h0]
  have h1 : 0 < num1 := Nat.pos_of_ne_zero h0
  have h2 : 0 < num2 := by omega
  have hne2 : num2 ≠ 0 := by omega
  have hexp := binExp_mono num1 num2 den h1 h hden
  obtain ⟨lo1, up1, _⟩ := binExp_bounds num1 den h1 hden
  obtain ⟨lo2, _, nrm2⟩ := binExp_bounds num2 den h2 hden
  simp only [F64.roundKey, h0, hne2, ↓reduceIte]
  rcases lt_or_eq_of_le hexp with hlt | heq
  · have hd1 : 0 < den * 2 ^ (F64.binExp num1 den).toNat := by positivity
    have hd2 : 0 < den * 2 ^ (F64.binExp num2 den).toNat := by positivity
    have m1 := roundHalfEven_le (num1 * 2 ^ (-(F64.binExp num1 den)).toNat)
      (den * 2 ^ (F64.binExp num1 den).toNat)
    have q1 : num1 * 2 ^ (-(F64.binExp num1 den)).toNat /
        (den * 2 ^ (F64.binExp num1 den).toNat) < 9007199254740992 := by
      apply Nat.div_lt_of_lt_mul
      exact lt_of_lt_of_eq up1 (Nat.mul_comm _ _)
    have m2 := roundHalfEven_ge (num2 * 2 ^ (-(F64.binExp num2 den)).toNat)
      (den * 2 ^ (F64.binExp num2 den).toNat)
    have q2 : 4503599627370496 ≤ num2 * 2 ^ (-(F64.binExp num2 den)).toNat /
        (den * 2 ^ (F64.binExp num2 den).toNat) := by
      rw [Nat.le_div_iff_mul_le hd2]
      exact nrm2 (by omega)
    omega
  · rw [← heq]
    have hd1 : 0 < den * 2 ^ (F64.binExp num1 den).toNat := by positivity
    have := roundHalfEven_mono (num1 * 2 ^ (-(F64.binExp num1 den)).toNat)
      (num2 * 2 ^ (-(F64.binExp num1 den)).toNat) _ hd1 (Nat.mul_le_mul_right _ h)
    omega

theorem round_pair (neg : Bool) (num den : Nat) :
    F64.round neg num den =
      if num = 0 then .ok (F64.ofFields neg 0 0) else
      let e := F64.binExp num den
      let m := Fmt.roundHalfEven (num * 2 ^ (-e).toNat) (den * 2 ^ e.toNat)
      let p : Nat × Int :=
        if m = 9007199254740992 then (4503599627370496, e + 1) else (m, e)
      if p.1 < 4503599627370496 then .ok (F64.ofFields neg 0 p.1)
      else if p.2 + 1075 ≥ 2047 then .error .ErrRange
      else .ok (F64.ofFields neg (p.2 + 1075).toNat (p.1 - 4503599627370496)) := by
  rfl

theorem round_unfold (neg : Bool) (num den : Nat) :
    F64.round neg num den =
      if num = 0 then .ok (F64.ofFields neg 0 0) else
      let e := F64.binExp num den
      let m := Fmt.roundHalfEven (num * 2 ^ (-e).toNat) (den * 2 ^ e.toNat)
      if m = 9007199254740992 then
        (if e + 1 + 1075 ≥ 2047 then .error .ErrRange
         else .ok (F64.ofFields neg (e + 1 + 1075).toNat 0))
      else if m < 4503599627370496 then .ok (F64.ofFields neg 0 m)
      else if e + 1075 ≥ 2047 then .error .ErrRange
      else .ok (F64.ofFields neg (e + 1075).toNat (m - 4503599627370496)) := by
  rw [round_pair]
  by_cases h0 : num = 0
  · simp [h0]
  · simp only [h0, ↓reduceIte]
    by_cases hm : Fmt.roundHalfEven (num * 2 ^ (-(F64.binExp num den)).toNat)
        (den * 2 ^ (F64.binExp num den).toNat) = 9007199254740992
    · simp [hm]
    · simp [hm]

/-- Below the pattern of the infinities `F64.round` succeeds, and the magnitude of its result
is `F64.roundKey`. -/
theorem round_ok (neg : Bool) (num den : Nat) (hden : 0 < den)
    (h : F64.roundKey num den < 9218868437227405312) :
    ∃ y, F64.round neg num den = .ok y ∧ y.sign = neg ∧ y.mag = F64.roundKey num den := by
  rw [round_unfold]
  by_cases h0 : num = 0
  · refine ⟨F64.ofFields neg 0 0, by simp [h0], rfl, ?_⟩
    simp [F64.roundKey, h0, F64.mag, F64.ofFields]
  have hnum : 0 < num := Nat.pos_of_ne_zero h0
  obtain ⟨lo, up, nrm⟩ := binExp_bounds num den hnum hden
  have hd : 0 < den * 2 ^ (F64.binExp num den).toNat := by positivity
  have mle := roundHalfEven_le (num * 2 ^ (-(F64.binExp num den)).toNat)
    (den * 2 ^ (F64.binExp num den).toNat)
  have mge := roundHalfEven_ge (num * 2 ^ (-(F64.binExp num den)).toNat)
    (den * 2 ^ (F64.binExp num den).toNat)
  have q1 : num * 2 ^ (-(F64.binExp num den)).toNat /
      (den * 2 ^ (F64.binExp num den).toNat) < 9007199254740992 := by
    apply Nat.div_lt_of_lt_mul
    exact lt_of_lt_of_eq up (Nat.mul_comm _ _)
  have q2 : -1074 < F64.binExp num den → 4503599627370496 ≤
      num * 2 ^ (-(F64.binExp num den)).toNat / (den * 2 ^ (F64.binExp num den).toNat) := by
    intro hlt
    rw [Nat.le_div_iff_mul_le hd]
    exact nrm hlt
  simp only [F64.roundKey, h0, ↓reduceIte] at h ⊢
  generalize Fmt.roundHalfEven (num * 2 ^ (-(F64.binExp num den)).toNat)
    (den * 2 ^ (F64.binExp num den).toNat) = m at *
  generalize num * 2 ^ (-(F64.binExp num den)).toNat /
    (den * 2 ^ (F64.binExp num den).toNat) = q at *
  generalize F64.binExp num den = e at *
  by_cases hm : m = 9007199254740992
  · have he : ¬ (e + 1 + 1075 ≥ 2047) := by omega
    refine ⟨F64.ofFields neg (e + 1 + 1075).toNat 0, by simp [hm, he], rfl, ?_⟩
    simp only [F64.mag, F64.ofFields]
    omega
  · by_cases hs : m < 4503599627370496
    · refine ⟨F64.ofFields neg 0 m, by simp [hm, hs], rfl, ?_⟩
      have he : e = -1074 := by
        by_contra hne
        have := q2 (by omega)
        omega
      simp only [F64.mag, F64.ofFields]
      omega
    · have he : ¬ (e + 1075 ≥ 2047) := by omega
      refine ⟨F64.ofFields neg (e + 1075).toNat (m - 4503599627370496),
        by simp [hm, hs, he], rfl, ?_⟩
      simp only [F64.mag, F64.ofFields]
      omega

/-! ## The value written by `%f` grows with the float -/

theorem scaled_mono (x y : F64) (h : x.mag ≤ y.mag) : Fmt.scaled x ≤ Fmt.scaled y := by
  have hfx := x.frac.isLt
  have hfy := y.frac.isLt
  unfold F64.mag at h
  have hexp : x.expo.val ≤ y.expo.val := by
    by_contra hc
    omega
  unfold Fmt.scaled
  rcases Nat.lt_or_eq_of_le hexp with hlt | heq
  · have hy0 : ¬ y.expo.val = 0 := by omega
    have hpy : 1 ≤ 2 ^ (y.expo.val - 1) := Nat.one_le_two_pow
    by_cases hx0 : x.expo.val = 0
    · simp only [hx0, hy0, ↓reduceIte]
      calc x.frac.val ≤ 4503599627370496 * 1 := by omega
        _ ≤ (4503599627370496 + y.frac.val) * 2 ^ (y.expo.val - 1) :=
            Nat.mul_le_mul (by omega) hpy
    · simp only [hx0, hy0, ↓reduceIte]
      have hpow : 2 ^ (x.expo.val - 1) * 2 ≤ 2 ^ (y.expo.val - 1) := by
        rw [← pow_succ]
        apply Nat.pow_le_pow_right (by norm_num)
        omega
      calc (4503599627370496 + x.frac.val) * 2 ^ (x.expo.val - 1)
          ≤ (4503599627370496 * 2) * 2 ^ (x.expo.val - 1) :=
            Nat.mul_le_mul_right _ (by omega)
        _ = 4503599627370496 * (2 ^ (x.expo.val - 1) * 2) := by ring
        _ ≤ 4503599627370496 * 2 ^ (y.expo.val - 1) := Nat.mul_le_mul_left _ hpow
        _ ≤ (4503599627370496 + y.frac.val) * 2 ^ (y.expo.val - 1) :=
            Nat.mul_le_mul_right _ (by omega)
  · have hf : x.frac.val ≤ y.frac.val := by omega
    rw [heq]
    split
    · exact hf
    · exact Nat.mul_le_mul_right _ (by omega)

theorem micro_mono (x y : F64) (h : x.mag ≤ y.mag) : Fmt.micro x ≤ Fmt.micro y :=
  roundHalfEven_mono _ _ _ (by positivity) (Nat.mul_le_mul_right _ (scaled_mono x y h))

theorem micro_zero (x : F64) (h : x.mag = 0) : Fmt.micro x = 0 := by
  unfold F64.mag at h
  have h1 : x.expo.val = 0 := by omega
  have h2 : x.frac.val = 0 := by omega
  have hs : Fmt.scaled x = 0 := by simp [Fmt.scaled, h1, h2]
  unfold Fmt.micro
  rw [hs]
  generalize 2 ^ 1074 = d
  simp [Fmt.roundHalfEven]

set_option maxRecDepth 100000 in
set_option exponentiation.threshold 3000 in
/-- The largest finite binary64 is written by `%f` and read back without overflow. -/
theorem roundKey_micro_max :
    F64.roundKey (Fmt.micro (F64.ofFields false 2046 4503599627370495)) 1000000 <
      9218868437227405312 := by
  decide

/-- What `%f` writes for a finite float is read back without overflow. -/
theorem roundKey_micro_lt (x : F64) (h : F64.IsFinite x = true) :
    F64.roundKey (Fmt.micro x) 1000000 < 9218868437227405312 := by
  have hf := x.frac.isLt
  have hx : x.expo.val < 2047 := by simpa [F64.IsFinite] using h
  have hmag : x.mag ≤ (F64.ofFields false 2046 4503599627370495).mag := by
    simp only [F64.mag, F64.ofFields]
    omega
  exact lt_of_le_of_lt (roundKey_mono _ _ _ (by norm_num) (micro_mono _ _ hmag))
    roundKey_micro_max

/-! ## The text of `%f` is read back as the value it writes -/

/-- `Strconv.readFloat` as the sequence of its stages. -/
theorem readFloat_stages (s : GoString) :
    Strconv.readFloat s =
      let p := Strconv.takeSign s
      let h := Strconv.takeHex p.2
      let ms := Strconv.scanMantissa (if h.1 then 16 else 10) h.2 ⟨0, 0, false, false⟩
      if !ms.1.sawdigits then .error .ErrSyntax else
      match Strconv.takeExponent h.1 ms.2 with
      | none => .error .ErrSyntax
      | some (e, rest) =>
        if rest ≠ [] then .error .ErrSyntax
        else if s.contains '_' ∧ !Strconv.underscoreOK s then .error .ErrSyntax
        else
          let bx : Nat × Int :=
            if h.1 then (2, e - 4 * (ms.1.fracDigits : Int))
            else (10, e - (ms.1.fracDigits : Int))
          F64.round p.1 (ms.1.value * bx.1 ^ bx.2.toNat) (bx.1 ^ (-bx.2).toNat) := by
  rfl

theorem digit_props (c : Char) (h : Fmt.IsDigit c) :
    Strconv.digitOf 10 c = some (c.toNat - '0'.toNat) ∧ c ≠ '_' ∧ c ≠ '.' ∧ c ≠ '+' ∧
    c ≠ '-' ∧ isNumChar c = true ∧ Strconv.toLower c ≠ 'x' ∧ Strconv.toLower c ≠ '.' := by
  obtain ⟨d, hd, rfl⟩ := h
  interval_cases d <;> decide

theorem digitChar_value (d : Nat) (h : d < 10) :
    (Nat.digitChar d).toNat - '0'.toNat = d := by
  interval_cases d <;> decide

theorem valueOf_cons (acc : Nat) (c : Char) (cs : GoString) :
    Fmt.valueOf acc (c :: cs) = Fmt.valueOf (acc * 10 + (c.toNat - '0'.toNat)) cs := rfl

theorem valueOf_append (acc : Nat) (cs ds : GoString) :
    Fmt.valueOf acc (cs ++ ds) = Fmt.valueOf (Fmt.valueOf acc cs) ds := by
  simp [Fmt.valueOf, List.foldl_append]

theorem valueOf_shift (acc : Nat) (cs : GoString) :
    Fmt.valueOf acc cs = acc * 10 ^ cs.length + Fmt.valueOf 0 cs := by
  induction cs generalizing acc with
  | nil => simp [Fmt.valueOf]
  | cons c cs ih =>
    rw [valueOf_cons, valueOf_cons, ih, ih (0 * 10 + (c.toNat - '0'.toNat)), List.length_cons,
      pow_succ]
    ring

/-- The mantissa loop reads a run of digits as a number. -/
theorem scan_digits (cs rest : GoString) (m : Strconv.Mantissa)
    (h : ∀ c ∈ cs, Fmt.IsDigit c) :
    Strconv.scanMantissa 10 (cs ++ rest) m =
      Strconv.scanMantissa 10 rest
        { value := Fmt.valueOf m.value cs,
          fracDigits := if m.sawdot then m.fracDigits + cs.length else m.fracDigits,
          sawdot := m.sawdot,
          sawdigits := m.sawdigits || !cs.isEmpty } := by
  induction cs generalizing m with
  | nil =>
    obtain ⟨v, f, sd, sg⟩ := m
    simp [Fmt.valueOf]
  | cons c cs ih =>
    obtain ⟨hd, h1, h2, _⟩ := digit_props c (h c (List.mem_cons_self _ _))
    rw [List.cons_append, Strconv.scanMantissa]
    simp only [h1, h2, ↓reduceIte, hd]
    rw [ih _ (fun d hd' => h d (List.mem_cons_of_mem _ hd'))]
    congr 1
    obtain ⟨v, f, sd, sg⟩ := m
    cases sd
    · simp [valueOf_cons]
    · simp [valueOf_cons]
      omega

/-- The mantissa loop on a plain fixed-point text: digits, a point, digits. -/
theorem scan_fixed (ip fp : GoString) (hip : ∀ c ∈ ip, Fmt.IsDigit c) (hne : ip ≠ [])
    (hfp : ∀ c ∈ fp, Fmt.IsDigit c) :
    Strconv.scanMantissa 10 (ip ++ '.' :: fp) ⟨0, 0, false, false⟩ =
      (⟨Fmt.valueOf 0 (ip ++ fp), fp.length, true, true⟩, []) := by
  rw [scan_digits ip _ _ hip, Strconv.scanMantissa]
  simp only [Char.reduceEq, ↓reduceIte, Bool.false_eq_true]
  have := scan_digits fp [] ⟨Fmt.valueOf 0 ip, 0, true, false || !ip.isEmpty⟩ hfp
  rw [List.append_nil] at this
  rw [this, Strconv.scanMantissa]
  cases ip with
  | nil => exact absurd rfl hne
  | cons c cs =>
    simp
    exact (valueOf_append 0 (c :: cs) fp).symm

theorem takeHex_plain (s : GoString) (h : ∀ c ∈ s, Strconv.toLower c ≠ 'x') :
    Strconv.takeHex s = (false, s) := by
  unfold Strconv.takeHex
  split
  · rename_i x c r
    rw [if_neg (h x (by simp))]
  · rfl

theorem takeSign_plain (c : Char) (cs : GoString) (h1 : c ≠ '+') (h2 : c ≠ '-') :
    Strconv.takeSign (c :: cs) = (false, c :: cs) := by
  unfold Strconv.takeSign
  split
  · rename_i r heq
    simp only [List.cons.injEq] at heq
    exact absurd heq.1 h1
  · rename_i r heq
    simp only [List.cons.injEq] at heq
    exact absurd heq.1 h2
  · rfl

theorem special_none (s : GoString) (h : '.' ∈ s.map Strconv.toLower) :
    Strconv.special s = none := by
  unfold Strconv.special
  simp only
  have hne : ∀ t : GoString, '.' ∉ t → s.map Strconv.toLower ≠ t := by
    intro t ht heq
    rw [heq] at h
    exact ht h
  rw [if_neg, if_neg, if_neg]
  · exact hne _ (by decide)
  · intro hor
    rcases hor with h1 | h1
    · exact hne _ (by decide) h1
    · exact hne _ (by decide) h1
  · intro hor
    rcases hor with h1 | h1 | h1 | h1
    · exact hne _ (by decide) h1
    · exact hne _ (by decide) h1
    · exact hne _ (by decide) h1
    · exact hne _ (by decide) h1

/-- A plain fixed-point text, with or without a minus sign, is read as the nearest binary64 to
the decimal number it writes. -/
theorem ParseFloat_fixed (neg : Bool) (ip fp : GoString) (hip : ∀ c ∈ ip, Fmt.IsDigit c)
    (hne : ip ≠ []) (hfp : ∀ c ∈ fp, Fmt.IsDigit c) :
    Strconv.ParseFloat ((if neg then ['-'] else []) ++ (ip ++ '.' :: fp)) =
      F64.round neg (Fmt.valueOf 0 (ip ++ fp)) (10 ^ fp.length) := by
  have hbody : ∀ c ∈ ip ++ '.' :: fp, c ≠ '_' ∧ Strconv.toLower c ≠ 'x' := by
    intro c hc
    rcases List.mem_append.mp hc with h | h
    · have := digit_props c (hip c h)
      exact ⟨this.2.1, this.2.2.2.2.2.2.1⟩
    · rcases List.mem_cons.mp h with rfl | h
      · decide
      · have := digit_props c (hfp c h)
        exact ⟨this.2.1, this.2.2.2.2.2.2.1⟩
  have hsign : Strconv.takeSign ((if neg then ['-'] else []) ++ (ip ++ '.' :: fp)) =
      (neg, ip ++ '.' :: fp) := by
    cases neg with
    | true => rfl
    | false =>
      cases ip with
      | nil => exact absurd rfl hne
      | cons c cs =>
        have := digit_props c (hip c (List.mem_cons_self _ _))
        exact takeSign_plain c _ this.2.2.2.1 this.2.2.2.2.1
  have hdot : '.' ∈ ((if neg then ['-'] else []) ++ (ip ++ '.' :: fp)).map Strconv.toLower := by
    rw [List.mem_map]
    exact ⟨'.', by simp, by decide⟩
  have hund : ((if neg then ['-'] else []) ++ (ip ++ '.' :: fp)).contains '_' = false := by
    rw [List.contains_eq_any_beq, List.any_eq_false]
    intro c hc
    rcases List.mem_append.mp hc with h | h
    · cases neg
      · simp at h
      · simp only [↓reduceIte, List.mem_singleton] at h
        subst h
        decide
    · have := (hbody c h).1
      simpa using fun heq => this heq.symm
  unfold Strconv.ParseFloat
  rw [special_none _ hdot, readFloat_stages]
  simp only [hsign, takeHex_plain _ (fun c hc => (hbody c hc).2), Bool.false_eq_true, ↓reduceIte,
    scan_fixed ip fp hip hne hfp, Bool.not_true, Strconv.takeExponent, ne_eq, not_true_eq_false,
    hund, false_and, zero_sub, Int.toNat_neg_nat, pow_zero, mul_one, neg_neg, Int.toNat_ofNat]

theorem fixedDigits_digit (k n : Nat) : ∀ c ∈ Fmt.fixedDigits k n, Fmt.IsDigit c := by
  induction k generalizing n with
  | zero => simp [Fmt.fixedDigits]
  | succ k ih =>
    intro c hc
    rw [Fmt.fixedDigits] at hc
    rcases List.mem_append.mp hc with h | h
    · exact ih _ c h
    · rw [List.mem_singleton] at h
      exact ⟨n % 10, Nat.mod_lt _ (by norm_num), h⟩

theorem fixedDigits_length (k n : Nat) : (Fmt.fixedDigits k n).length = k := by
  induction k generalizing n with
  | zero => rfl
  | succ k ih => simp [Fmt.fixedDigits, ih]

theorem fixedDigits_value (k n acc : Nat) :
    Fmt.valueOf acc (Fmt.fixedDigits k n) = acc * 10 ^ k + n % 10 ^ k := by
  induction k generalizing n with
  | zero => simp [Fmt.fixedDigits, Fmt.valueOf, Nat.mod_one]
  | succ k ih =>
    rw [Fmt.fixedDigits, valueOf_append, ih]
    rw [show Fmt.valueOf (acc * 10 ^ k + n / 10 % 10 ^ k) [Nat.digitChar (n % 10)] =
        (acc * 10 ^ k + n / 10 % 10 ^ k) * 10 + ((Nat.digitChar (n % 10)).toNat - '0'.toNat)
        from rfl,
      digitChar_value _ (Nat.mod_lt _ (by norm_num))]
    have hm : n % 10 ^ (k + 1) = n % 10 + 10 * (n / 10 % 10 ^ k) := by
      rw [pow_succ, Nat.mul_comm (10 ^ k) 10, Nat.mod_mul]
    rw [hm, pow_succ]
    ring

theorem digitsLoop_digit (fuel n : Nat) (acc : GoString) (h : ∀ c ∈ acc, Fmt.IsDigit c) :
    ∀ c ∈ Fmt.digitsLoop fuel n acc, Fmt.IsDigit c := by
  induction fuel generalizing n acc with
  | zero => exact h
  | succ f ih =>
    rw [Fmt.digitsLoop]
    split
    · rename_i hlt
      intro c hc
      rcases List.mem_cons.mp hc with rfl | hc
      · exact ⟨n, hlt, rfl⟩
      · exact h c hc
    · apply ih
      intro c hc
      rcases List.mem_cons.mp hc with rfl | hc
      · exact ⟨n % 10, Nat.mod_lt _ (by norm_num), rfl⟩
      · exact h c hc

theorem digitsLoop_ne_nil (fuel n : Nat) (acc : GoString) (h : acc ≠ [] ∨ 0 < fuel) :
    Fmt.digitsLoop fuel n acc ≠ [] := by
  induction fuel generalizing n acc with
  | zero =>
    rcases h with h | h
    · exact h
    · omega
  | succ f ih =>
    rw [Fmt.digitsLoop]
    split
    · simp
    · exact ih _ _ (Or.inl (by simp))

theorem digitsLoop_value (fuel n : Nat) (acc : GoString) (h : n < 10 ^ fuel) :
    Fmt.valueOf 0 (Fmt.digitsLoop fuel n acc) = n * 10 ^ acc.length + Fmt.valueOf 0 acc := by
  induction fuel generalizing n acc with
  | zero =>
    have : n = 0 := by simpa using h
    simp [Fmt.digitsLoop, this]
  | succ f ih =>
    rw [Fmt.digitsLoop]
    split
    · rename_i hlt
      rw [valueOf_cons, valueOf_shift, digitChar_value n hlt]
      ring
    · have hdiv : n / 10 < 10 ^ f := by
        rw [Nat.div_lt_iff_lt_mul (by norm_num)]
        rw [pow_succ] at h
        exact h
      rw [ih _ _ hdiv, valueOf_cons, valueOf_shift, digitChar_value _ (Nat.mod_lt _ (by norm_num)),
        List.length_cons, pow_succ]
      have := Nat.div_add_mod n 10
      calc n / 10 * (10 ^ acc.length * 10) +
            ((0 * 10 + n % 10) * 10 ^ acc.length + Fmt.valueOf 0 acc)
          = (10 * (n / 10) + n % 10) * 10 ^ acc.length + Fmt.valueOf 0 acc := by ring
        _ = n * 10 ^ acc.length + Fmt.valueOf 0 acc := by rw [this]

theorem decimal_value (n : Nat) : Fmt.valueOf 0 (Fmt.decimal n) = n := by
  have h : n < 10 ^ (n + 1) :=
    lt_of_lt_of_le (Nat.lt_pow_self (by norm_num) n) (Nat.pow_le_pow_right (by norm_num) (by omega))
  have := digitsLoop_value (n + 1) n [] h
  simpa [Fmt.decimal, Fmt.valueOf] using this

theorem decimal_digit (n : Nat) : ∀ c ∈ Fmt.decimal n, Fmt.IsDigit c :=
  digitsLoop_digit _ _ _ (by simp)

theorem decimal_ne_nil (n : Nat) : Fmt.decimal n ≠ [] :=
  digitsLoop_ne_nil _ _ _ (Or.inr (by omega))

/-- The text `%f` writes for a finite float is read back as the nearest binary64 to the
six-decimal value it writes. -/
theorem ParseFloat_Sprintf_f (x : F64) (h : F64.IsFinite x = true) :
    Strconv.ParseFloat (Fmt.Sprintf_f x) = F64.round x.sign (Fmt.micro x) 1000000 := by
  have hx : x.expo.val < 2047 := by simpa [F64.IsFinite] using h
  have hnan : x.IsNaN = false := by
    simp only [F64.IsNaN, Bool.and_eq_false_imp, beq_iff_eq]
    intro h'
    omega
  have htext : Fmt.Sprintf_f x = (if x.sign then ['-'] else []) ++
      (Fmt.decimal (Fmt.micro x / 1000000) ++
        '.' :: Fmt.fixedDigits 6 (Fmt.micro x % 1000000)) := by
    unfold Fmt.Sprintf_f
    rw [if_neg (by simp [hnan]), if_neg (by omega)]
    simp only [Fmt.micro, List.append_assoc]
  rw [htext, ParseFloat_fixed x.sign _ _ (decimal_digit _) (decimal_ne_nil _)
    (fixedDigits_digit _ _), fixedDigits_length, valueOf_append, decimal_value,
    fixedDigits_value]
  have hmod : Fmt.micro x % 1000000 % 10 ^ 6 = Fmt.micro x % 1000000 := by norm_num
  have hsum : Fmt.micro x / 1000000 * 10 ^ 6 + Fmt.micro x % 1000000 = Fmt.micro x := by
    have := Nat.div_add_mod (Fmt.micro x) 1000000
    norm_num
    omega
  rw [hmod, hsum]
  norm_num

/-! ## The float-pair constructor -/

theorem Sprintf_f_chars (x : F64) (h : F64.IsFinite x = true) :
    Fmt.Sprintf_f x ≠ [] ∧ numText (Fmt.Sprintf_f x) = true := by
  have hx : x.expo.val < 2047 := by simpa [F64.IsFinite] using h
  have hnan : x.IsNaN = false := by
    simp only [F64.IsNaN, Bool.and_eq_false_imp, beq_iff_eq]
    intro h'
    omega
  have htext : Fmt.Sprintf_f x = (if x.sign then ['-'] else []) ++
      (Fmt.decimal (Fmt.micro x / 1000000) ++
        '.' :: Fmt.fixedDigits 6 (Fmt.micro x % 1000000)) := by
    unfold Fmt.Sprintf_f
    rw [if_neg (by simp [hnan]), if_neg (by omega)]
    simp only [Fmt.micro, List.append_assoc]
  rw [htext]
  refine ⟨by simp, ?_⟩
  unfold numText
  rw [List.all_eq_true]
  intro c hc
  rcases List.mem_append.mp hc with h1 | h1
  · have hc' : c = '-' := by
      by_cases hsg : x.sign = true
      · simpa [hsg] using h1
      · simp [hsg] at h1
    subst hc'
    decide
  · rcases List.mem_append.mp h1 with h2 | h2
    · exact (digit_props c (decimal_digit _ c h2)).2.2.2.2.2.1
    · rcases List.mem_cons.mp h2 with rfl | h3
      · decide
      · exact (digit_props c (fixedDigits_digit _ _ c h3)).2.2.2.2.2.1

/-- What is read back from the text of `%f`: a number with the sign of `x` whose magnitude is
the rounded six-decimal value. -/
theorem ParseFloat_Sprintf_f_ok (x : F64) (h : F64.IsFinite x = true) :
    ∃ y, Strconv.ParseFloat (Fmt.Sprintf_f x) = .ok y ∧ y.sign = x.sign ∧
      y.mag = F64.roundKey (Fmt.micro x) 1000000 ∧ F64.IsNaN y = false := by
  obtain ⟨y, hy, hsign, hmag⟩ :=
    round_ok x.sign (Fmt.micro x) 1000000 (by norm_num) (roundKey_micro_lt x h)
  refine ⟨y, by rw [ParseFloat_Sprintf_f x h, hy], hsign, hmag, ?_⟩
  have hlt := roundKey_micro_lt x h
  rw [← hmag] at hlt
  have hf := y.frac.isLt
  unfold F64.mag at hlt
  simp only [F64.IsNaN, Bool.and_eq_false_imp, beq_iff_eq]
  intro h'
  omega

/-- `ParseRange` on two number texts with a colon between them. -/
theorem ParseRange_two_texts (ParseFloat : GoString → Except NumError F64)
    (ta tb : GoString) (a b : F64) (hta : numText ta = true) (htane : ta ≠ [])
    (htb : numText tb = true) (htbne : tb ≠ [])
    (ha : ParseFloat ta = .ok a) (hb : ParseFloat tb = .ok b) (hlt : F64.lt b a = false) :
    ParseRange ParseFloat (ta ++ ':' :: tb) = .ok ⟨a, b, false⟩ := by
  have hhead : ∀ c, (ta ++ ':' :: tb).head? = some c →
      c ≠ '@' ∧ c ≠ '~' ∧ c ∉ [' ', '\n', '\r'] := by
    intro c hc
    cases ta with
    | nil => exact absurd rfl htane
    | cons d ds =>
      simp only [List.cons_append, List.head?_cons, Option.some.injEq] at hc
      subst hc
      have hd := isNumChar_props d (numText_head _ hta d rfl)
      exact ⟨hd.2.1, hd.2.2.1, hd.2.2.2⟩
  have hlast : ∀ c, (ta ++ ':' :: tb).getLast? = some c → c ∉ [' ', '\n', '\r'] := by
    intro c hc
    have hsplit : ta ++ ':' :: tb = (ta ++ [':']) ++ tb := by simp
    rw [hsplit, List.getLast?_append_of_ne_nil _ htbne] at hc
    exact (isNumChar_props c (numText_getLast _ htb c hc)).2.2.2
  have hnt : (ta ++ ':' :: tb).head? ≠ some '~' := fun hc => (hhead _ hc).2.1 rfl
  have hm := ParseRange_marked ParseFloat false (ta ++ ':' :: tb) (by simp)
    (fun c hc => ⟨(hhead c hc).1, (hhead c hc).2.2⟩) hlast
  simp only [Bool.false_eq_true, ↓reduceIte, List.nil_append] at hm
  rw [hm, boundsOf, resolveBounds_first _ _ _ (numText_no_colon _ hta), if_neg hnt, ha]
  simp [resolveUpper, htbne, hb, hlt, rangeOutcome]

/-- The order of two finite floats is the order of what is read back from their `%f` texts. -/
theorem readback_order (x y x' y' : F64) (hle : F64.le x y = true)
    (hxs : x'.sign = x.sign) (hxm : x'.mag = F64.roundKey (Fmt.micro x) 1000000)
    (hys : y'.sign = y.sign) (hym : y'.mag = F64.roundKey (Fmt.micro y) 1000000) :
    x'.key ≤ y'.key := by
  simp only [F64.le, Bool.and_eq_true, decide_eq_true_eq] at hle
  have hk := hle.2
  simp only [F64.key] at hk ⊢
  rw [hxs, hys, hxm, hym]
  cases hsx : x.sign <;> cases hsy : y.sign <;>
    simp only [hsx, hsy, Bool.false_eq_true, ↓reduceIte] at hk ⊢
  · have := roundKey_mono _ _ 1000000 (by norm_num) (micro_mono x y (by omega))
    omega
  · have hx0 : x.mag = 0 := by omega
    have hy0 : y.mag = 0 := by omega
    rw [micro_zero x hx0, micro_zero y hy0]
    simp [F64.roundKey]
  · omega
  · have := roundKey_mono _ _ 1000000 (by norm_num) (micro_mono y x (by omega))
    omega

/-- C17: for finite floats `start <= end`, `NewSimpleRangeFromFloat(start, end)` succeeds; its
result is the result of `ParseRange` on the text `fmt.Sprintf("%f:%f", start, end)`, a range
with `AlertOnInside = false` and `Start <= End`. -/
theorem NewSimpleRangeFromFloat_ok (start end' : F64) (hs : F64.IsFinite start = true)
    (he : F64.IsFinite end' = true) (hle : F64.le start end' = true) :
    ∃ r : Range,
      NewSimpleRangeFromFloat Strconv.ParseFloat Fmt.Sprintf_f start end' = .ok r ∧
      ParseRange Strconv.ParseFloat (Fmt.Sprintf_f start ++ [':'] ++ Fmt.Sprintf_f end') =
        .ok r ∧
      r.AlertOnInside = false ∧ F64.le r.Start r.End = true := by
  obtain ⟨a, ha, has, ham, hna⟩ := ParseFloat_Sprintf_f_ok start hs
  obtain ⟨b, hb, hbs, hbm, hnb⟩ := ParseFloat_Sprintf_f_ok end' he
  have hkey := readback_order start end' a b hle has ham hbs hbm
  have hab : F64.le a b = true := by
    simp [F64.le, hna, hnb, hkey]
  obtain ⟨hane, hanum⟩ := Sprintf_f_chars start hs
  obtain ⟨hbne, hbnum⟩ := Sprintf_f_chars end' he
  have hparse := ParseRange_two_texts Strconv.ParseFloat _ _ a b hanum hane hbnum hbne ha hb
    (F64.lt_false_of_le a b hab)
  have htext : Fmt.Sprintf_f start ++ [':'] ++ Fmt.Sprintf_f end' =
      Fmt.Sprintf_f start ++ ':' :: Fmt.Sprintf_f end' := by simp
  refine ⟨⟨a, b, false⟩, ?_, ?_, rfl, hab⟩
  · unfold NewSimpleRangeFromFloat
    rw [htext]
    exact hparse
  · rw [htext]
    exact hparse

/-- Witness for C17 on the pair (10, 20). -/
theorem NewSimpleRangeFromFloat_ok_witness :
    ∃ r : Range,
      NewSimpleRangeFromFloat Strconv.ParseFloat Fmt.Sprintf_f (F64.ofInt 10) (F64.ofInt 20) =
        .ok r ∧
      ParseRange Strconv.ParseFloat
          (Fmt.Sprintf_f (F64.ofInt 10) ++ [':'] ++ Fmt.Sprintf_f (F64.ofInt 20)) = .ok r ∧
      r.AlertOnInside = false ∧ F64.le r.Start r.End = true :=
  NewSimpleRangeFromFloat_ok (F64.ofInt 10) (F64.ofInt 20) (by decide) (by decide) (by decide)

/-! ## `F64.round` depends on the fraction only, and keeps the floats themselves -/

theorem binExp_congr (n1 d1 n2 d2 : Nat) (h1 : 0 < n1) (hd1 : 0 < d1) (h2 : 0 < n2)
    (hd2 : 0 < d2) (h : (n1 : ℚ) / (d1 : ℚ) = (n2 : ℚ) / (d2 : ℚ)) :
    F64.binExp n1 d1 = F64.binExp n2 d2 := by
  obtain ⟨fl1, he1, l1, u1⟩ := binExp_spec n1 d1 h1 hd1
  obtain ⟨fl2, he2, l2, u2⟩ := binExp_spec n2 d2 h2 hd2
  rw [h] at l1 u1
  have a : fl1 < fl2 + 1 :=
    (zpow_lt_zpow_iff_right₀ (by norm_num : (1 : ℚ) < 2)).mp (lt_of_le_of_lt l1 u2)
  have b : fl2 < fl1 + 1 :=
    (zpow_lt_zpow_iff_right₀ (by norm_num : (1 : ℚ) < 2)).mp (lt_of_le_of_lt l2 u1)
  have : fl1 = fl2 := by omega
  rw [he1, he2, this]

theorem roundHalfEven_scale (n d c : Nat) (hc : 0 < c) :
    Fmt.roundHalfEven (n * c) (d * c) = Fmt.roundHalfEven n d := by
  unfold Fmt.roundHalfEven
  simp only [Nat.mul_div_mul_right n d hc, Nat.mul_mod_mul_right]
  have e1 : d * c < 2 * (n % d * c) ↔ d < 2 * (n % d) := by
    rw [show 2 * (n % d * c) = (2 * (n % d)) * c by ring]
    exact Nat.mul_lt_mul_right hc
  have e2 : 2 * (n % d * c) = d * c ↔ 2 * (n % d) = d := by
    rw [show 2 * (n % d * c) = (2 * (n % d)) * c by ring]
    exact Nat.mul_left_inj (by omega)
  simp only [e1, e2]

/-- A common factor of numerator and denominator does not change the rounded result. -/
theorem round_scale (neg : Bool) (n d c : Nat) (hd : 0 < d) (hc : 0 < c) :
    F64.round neg (n * c) (d * c) = F64.round neg n d := by
  rw [round_unfold, round_unfold]
  by_cases h0 : n = 0
  · simp [h0]
  have hn : 0 < n := Nat.pos_of_ne_zero h0
  have hnc : n * c ≠ 0 := by positivity
  have hq : ((n * c : Nat) : ℚ) / ((d * c : Nat) : ℚ) = (n : ℚ) / (d : ℚ) := by
    have hc' : (c : ℚ) ≠ 0 := by exact_mod_cast hc.ne'
    push_cast
    rw [mul_div_mul_right _ _ hc']
  have he := binExp_congr (n * c) (d * c) n d (by positivity) (by positivity) hn hd hq
  have hr : Fmt.roundHalfEven (n * c * 2 ^ (-(F64.binExp n d)).toNat)
      (d * c * 2 ^ (F64.binExp n d).toNat) =
      Fmt.roundHalfEven (n * 2 ^ (-(F64.binExp n d)).toNat) (d * 2 ^ (F64.binExp n d).toNat) := by
    rw [show n * c * 2 ^ (-(F64.binExp n d)).toNat = n * 2 ^ (-(F64.binExp n d)).toNat * c by ring,
      show d * c * 2 ^ (F64.binExp n d).toNat = d * 2 ^ (F64.binExp n d).toNat * c by ring]
    exact roundHalfEven_scale _ _ c hc
  simp only [h0, hnc, ↓reduceIte, he, hr]

theorem F64.eq_of_sign_mag (x y : F64) (hs : x.sign = y.sign) (hm : x.mag = y.mag) : x = y := by
  obtain ⟨sx, ⟨ex, hex⟩, ⟨fx, hfx⟩⟩ := x
  obtain ⟨sy, ⟨ey, hey⟩, ⟨fy, hfy⟩⟩ := y
  simp only [F64.mag] at hm
  simp only at hs
  have h1 : ex = ey := by omega
  have h2 : fx = fy := by omega
  subst hs h1 h2
  rfl

theorem roundHalfEven_exact (m d : Nat) (hd : 0 < d) : Fmt.roundHalfEven (m * d) d = m := by
  unfold Fmt.roundHalfEven
  simp only [Nat.mul_div_cancel m hd, Nat.mul_mod_left]
  rw [if_neg]
  omega

theorem two_zpow_lt (a b : Int) (c : ℚ) (hc : 0 < c)
    (h : c * (2 : ℚ) ^ a < 2 * c * (2 : ℚ) ^ b) : a < b + 1 := by
  have two : (2 : ℚ) ≠ 0 := by norm_num
  have h' : (2 : ℚ) ^ a < (2 : ℚ) ^ (b + 1) := by
    rw [zpow_add₀ two, zpow_one]
    have : c * (2 : ℚ) ^ a < c * ((2 : ℚ) ^ b * 2) := by linarith
    exact lt_of_mul_lt_mul_left this (le_of_lt hc)
  exact (zpow_lt_zpow_iff_right₀ (by norm_num : (1 : ℚ) < 2)).mp h'

theorem roundKey_exact_aux (x : F64) (P : Nat) (hP : P = 1074) :
    F64.roundKey (if x.expo.val = 0 then x.frac.val
      else (4503599627370496 + x.frac.val) * 2 ^ (x.expo.val - 1)) (2 ^ P) = x.mag := by
  have hf := x.frac.isLt
  have two : (2 : ℚ) ≠ 0 := by norm_num
  have hpos : 0 < 2 ^ P := pow_pos (by norm_num) P
  have hc : ((2 ^ P : Nat) : ℚ) = (2 : ℚ) ^ (P : Int) := by
    rw [Nat.cast_pow, zpow_natCast]
    rfl
  have hpq : (0 : ℚ) < (2 : ℚ) ^ (P : Int) := by positivity
  generalize hsc : (if x.expo.val = 0 then x.frac.val
      else (4503599627370496 + x.frac.val) * 2 ^ (x.expo.val - 1)) = sc
  by_cases hz : sc = 0
  · have hm : x.mag = 0 := by
      unfold F64.mag
      by_cases h0 : x.expo.val = 0
      · simp only [h0, ↓reduceIte] at hsc
        omega
      · simp only [h0, ↓reduceIte] at hsc
        have : 0 < (4503599627370496 + x.frac.val) * 2 ^ (x.expo.val - 1) := by positivity
        omega
    simp [F64.roundKey, hz, hm]
  have hn : 0 < sc := Nat.pos_of_ne_zero hz
  obtain ⟨lo, up, nrm⟩ := binExp_bounds sc (2 ^ P) hn hpos
  rw [scaled_lt_iff _ _ _ hpos, hc] at up
  have nrm' : -1074 < F64.binExp sc (2 ^ P) →
      ((4503599627370496 : Nat) : ℚ) * (2 : ℚ) ^ F64.binExp sc (2 ^ P) ≤
        (sc : ℚ) / (2 : ℚ) ^ (P : Int) := by
    intro h
    have := (scaled_le_iff _ _ _ hpos _).mp (nrm h)
    rw [hc] at this
    exact this
  simp only [F64.roundKey, hz, ↓reduceIte]
  generalize he : F64.binExp sc (2 ^ P) = e at *
  by_cases h0 : x.expo.val = 0
  · -- subnormal
    have hs : sc = x.frac.val := by
      rw [← hsc]
      simp [h0]
    have hQ : (sc : ℚ) / (2 : ℚ) ^ (P : Int) <
        ((4503599627370496 : Nat) : ℚ) * (2 : ℚ) ^ (-(P : Int)) := by
      rw [hs, zpow_neg, ← div_eq_mul_inv]
      have hlt : (x.frac.val : ℚ) < ((4503599627370496 : Nat) : ℚ) := by exact_mod_cast hf
      exact div_lt_div_of_pos_right hlt hpq
    have hee : e = -(P : Int) := by
      by_contra hne
      have h1 := nrm' (by omega)
      have h2 := lt_of_le_of_lt h1 hQ
      have h3 : (2 : ℚ) ^ e < (2 : ℚ) ^ (-(P : Int)) :=
        lt_of_mul_lt_mul_left h2 (by positivity)
      have := (zpow_lt_zpow_iff_right₀ (by norm_num : (1 : ℚ) < 2)).mp h3
      omega
    subst hee
    have h1 : (-(-(P : Int))).toNat = P := by omega
    have h2 : (-(P : Int)).toNat = 0 := by omega
    have h3 : (-(P : Int) + 1074).toNat = 0 := by omega
    rw [h1, h2, h3, pow_zero, Nat.mul_one, hs, roundHalfEven_exact _ _ hpos]
    simp [F64.mag, h0]
  · -- normal
    have hs : sc = (4503599627370496 + x.frac.val) * 2 ^ (x.expo.val - 1) := by
      rw [← hsc]
      simp [h0]
    have hQ : (sc : ℚ) / (2 : ℚ) ^ (P : Int) =
        ((4503599627370496 + x.frac.val : Nat) : ℚ) *
          (2 : ℚ) ^ (((x.expo.val - 1 : Nat) : Int) - (P : Int)) := by
      rw [hs, zpow_sub₀ two, zpow_natCast, zpow_natCast]
      push_cast
      ring
    generalize ht : ((x.expo.val - 1 : Nat) : Int) - (P : Int) = t at hQ
    rw [hQ] at up
    have hM1 : ((4503599627370496 : Nat) : ℚ) ≤ ((4503599627370496 + x.frac.val : Nat) : ℚ) := by
      exact_mod_cast Nat.le_add_right _ _
    have hM2 : ((4503599627370496 + x.frac.val : Nat) : ℚ) < ((9007199254740992 : Nat) : ℚ) := by
      exact_mod_cast (by omega : 4503599627370496 + x.frac.val < 9007199254740992)
    have hpe : (0 : ℚ) < (2 : ℚ) ^ e := by positivity
    have hpt : (0 : ℚ) < (2 : ℚ) ^ t := by positivity
    have hte : t < e + 1 := by
      apply two_zpow_lt _ _ ((4503599627370496 : Nat) : ℚ) (by norm_num)
      calc ((4503599627370496 : Nat) : ℚ) * (2 : ℚ) ^ t
          ≤ ((4503599627370496 + x.frac.val : Nat) : ℚ) * (2 : ℚ) ^ t :=
            mul_le_mul_of_nonneg_right hM1 (le_of_lt hpt)
        _ < ((9007199254740992 : Nat) : ℚ) * (2 : ℚ) ^ e := up
        _ = 2 * ((4503599627370496 : Nat) : ℚ) * (2 : ℚ) ^ e := by norm_num
    have het : e ≤ t := by
      by_cases hmin : e = -1074
      · omega
      · have h1 := nrm' (by omega)
        rw [hQ] at h1
        have : e < t + 1 := by
          apply two_zpow_lt _ _ ((4503599627370496 : Nat) : ℚ) (by norm_num)
          calc ((4503599627370496 : Nat) : ℚ) * (2 : ℚ) ^ e
              ≤ ((4503599627370496 + x.frac.val : Nat) : ℚ) * (2 : ℚ) ^ t := h1
            _ < ((9007199254740992 : Nat) : ℚ) * (2 : ℚ) ^ t :=
                mul_lt_mul_of_pos_right hM2 hpt
            _ = 2 * ((4503599627370496 : Nat) : ℚ) * (2 : ℚ) ^ t := by norm_num
        omega
    have hee : e = t := by omega
    subst hee
    have hnd : sc * 2 ^ (-e).toNat =
        (4503599627370496 + x.frac.val) * (2 ^ P * 2 ^ e.toNat) := by
      rw [hs]
      by_cases hbig : 1075 ≤ x.expo.val
      · have a1 : (-e).toNat = 0 := by omega
        have a2 : e.toNat = x.expo.val - 1075 := by omega
        have a4 : x.expo.val - 1 = P + (x.expo.val - 1075) := by omega
        rw [a1, a2, pow_zero, Nat.mul_one, ← pow_add, a4]
      · have a1 : (-e).toNat = 1075 - x.expo.val := by omega
        have a2 : e.toNat = 0 := by omega
        have a4 : x.expo.val - 1 + (1075 - x.expo.val) = P := by omega
        rw [a1, a2, pow_zero, Nat.mul_one, Nat.mul_assoc, ← pow_add, a4]
    rw [hnd, roundHalfEven_exact _ _ (by positivity)]
    have a3 : (e + 1074).toNat = x.expo.val - 1 := by omega
    rw [a3]
    simp only [F64.mag]
    omega

set_option maxRecDepth 100000 in
/-- The magnitude that `F64.round` gives the exact value of a float is the float's own. -/
theorem roundKey_exact (x : F64) : F64.roundKey (Fmt.scaled x) (2 ^ 1074) = x.mag :=
  roundKey_exact_aux x 1074 rfl

/-- The exact value of a finite float is rounded to the float itself. -/
theorem round_exact (x : F64) (h : F64.IsFinite x = true) :
    F64.round x.sign (Fmt.scaled x) (2 ^ 1074) = .ok x := by
  have hf := x.frac.isLt
  have hx : x.expo.val < 2047 := by simpa [F64.IsFinite] using h
  have hk := roundKey_exact x
  have hlt : F64.roundKey (Fmt.scaled x) (2 ^ 1074) < 9218868437227405312 := by
    rw [hk]
    unfold F64.mag
    omega
  obtain ⟨y, hy, hs, hm⟩ := round_ok x.sign _ _ (pow_pos (by norm_num) 1074) hlt
  rw [hy, F64.eq_of_sign_mag y x hs (by rw [hm, hk])]

/-! ## The digits `FormatFloat` chooses read back as the float -/

theorem log2_pow (j : Nat) : F64.log2 (2 ^ j) = j := by
  obtain ⟨lo, up⟩ := log2_spec (2 ^ j) (pow_pos (by norm_num) j)
  have a : F64.log2 (2 ^ j) ≤ j := (Nat.pow_le_pow_iff_right (by norm_num)).mp lo
  have b : j < F64.log2 (2 ^ j) + 1 := (Nat.pow_lt_pow_iff_right (by norm_num)).mp up
  omega

/-- The fraction of `Strconv.magnitude` is the exact value of the float: it is rounded to the
float itself. -/
theorem round_magnitude_aux (x : F64) (P : Nat) (hP : P = 1074)
    (hr : F64.round x.sign (if x.expo.val = 0 then x.frac.val
      else (4503599627370496 + x.frac.val) * 2 ^ (x.expo.val - 1)) (2 ^ P) = .ok x) :
    ∃ num j, (if x.expo.val = 0 then (x.frac.val, 2 ^ P)
        else ((4503599627370496 + x.frac.val) * 2 ^ (x.expo.val - 1075),
          2 ^ (1075 - x.expo.val))) = (num, 2 ^ j) ∧
      F64.round x.sign num (2 ^ j) = .ok x := by
  by_cases h0 : x.expo.val = 0
  · refine ⟨x.frac.val, P, by simp [h0], ?_⟩
    simpa [h0] using hr
  · simp only [h0, ↓reduceIte] at hr ⊢
    refine ⟨_, _, rfl, ?_⟩
    by_cases hbig : 1075 ≤ x.expo.val
    · have e1 : x.expo.val - 1 = x.expo.val - 1075 + P := by omega
      have e2 : 1075 - x.expo.val = 0 := by omega
      rw [e2, pow_zero]
      rw [e1, pow_add, ← Nat.mul_assoc] at hr
      rw [← hr]
      have := round_scale x.sign ((4503599627370496 + x.frac.val) * 2 ^ (x.expo.val - 1075)) 1
        (2 ^ P) (by norm_num) (pow_pos (by norm_num) P)
      rw [Nat.one_mul] at this
      exact this.symm
    · have e1 : P = 1075 - x.expo.val + (x.expo.val - 1) := by omega
      have e2 : x.expo.val - 1075 = 0 := by omega
      rw [e2, pow_zero, Nat.mul_one]
      rw [← hr]
      have := round_scale x.sign (4503599627370496 + x.frac.val) (2 ^ (1075 - x.expo.val))
        (2 ^ (x.expo.val - 1)) (pow_pos (by norm_num) _) (pow_pos (by norm_num) _)
      rw [← pow_add, ← e1] at this
      exact this.symm

set_option maxRecDepth 100000 in
theorem round_magnitude (x : F64) (h : F64.IsFinite x = true) :
    ∃ num j, Strconv.magnitude x = (num, 2 ^ j) ∧ F64.round x.sign num (2 ^ j) = .ok x :=
  round_magnitude_aux x 1074 rfl (round_exact x h)

/-- A decimal that the search accepts at some digit count reads back as the float. -/
theorem shortestAt_good (x : F64) (num den : Nat) (p10 : Int) (n d : Nat) (k : Int)
    (h : Strconv.shortestAt x num den p10 n = some (d, k)) :
    F64.round x.sign (d * 10 ^ k.toNat) (10 ^ (-k).toNat) = .ok x := by
  unfold Strconv.shortestAt at h
  simp only at h
  split at h <;>
  · split_ifs at h with h1 h2
    · simp only [Option.some.injEq, Prod.mk.injEq] at h
      obtain ⟨rfl, rfl⟩ := h
      simpa using h1
    · simp only [Option.some.injEq, Prod.mk.injEq] at h
      obtain ⟨rfl, rfl⟩ := h
      simpa using h2

/-- The exact decimal expansion of a fraction with a power of two below reads back as what
the fraction is rounded to. -/
theorem exact_expansion (neg : Bool) (num j : Nat) :
    F64.round neg (num * 5 ^ F64.log2 (2 ^ j) * 10 ^ (-(F64.log2 (2 ^ j) : Int)).toNat)
      (10 ^ (- -(F64.log2 (2 ^ j) : Int)).toNat) = F64.round neg num (2 ^ j) := by
  rw [log2_pow]
  have e1 : (-(j : Int)).toNat = 0 := by omega
  have e2 : (- -(j : Int)).toNat = j := by omega
  rw [e1, e2, pow_zero, Nat.mul_one]
  have e3 : (10 : Nat) ^ j = 2 ^ j * 5 ^ j := by
    rw [← Nat.mul_pow]
  rw [e3]
  exact round_scale neg num (2 ^ j) (5 ^ j) (pow_pos (by norm_num) j) (pow_pos (by norm_num) j)

/-- Whatever the search returns reads back as the float. -/
theorem shortestLoop_good (x : F64) (num j : Nat) (p10 : Int) (fuel n : Nat)
    (hx : F64.round x.sign num (2 ^ j) = .ok x) :
    F64.round x.sign
      ((Strconv.shortestLoop x num (2 ^ j) p10 fuel n).1 *
        10 ^ (Strconv.shortestLoop x num (2 ^ j) p10 fuel n).2.toNat)
      (10 ^ (-(Strconv.shortestLoop x num (2 ^ j) p10 fuel n).2).toNat) = .ok x := by
  induction fuel generalizing n with
  | zero =>
    rw [Strconv.shortestLoop]
    simp only
    rw [exact_expansion, hx]
  | succ f ih =>
    rw [Strconv.shortestLoop]
    cases hs : Strconv.shortestAt x num (2 ^ j) p10 n with
    | none => exact ih (n + 1)
    | some dk =>
      obtain ⟨d, k⟩ := dk
      exact shortestAt_good x num (2 ^ j) p10 n d k hs

/-- Dropping zeros behind the point keeps what the decimal reads back as. -/
theorem trimZeros_good (neg : Bool) (y : Except NumError F64) (fuel : Nat) (dk : Nat × Int)
    (h : F64.round neg (dk.1 * 10 ^ dk.2.toNat) (10 ^ (-dk.2).toNat) = y) :
    F64.round neg ((Strconv.trimZeros fuel dk).1 * 10 ^ (Strconv.trimZeros fuel dk).2.toNat)
      (10 ^ (-(Strconv.trimZeros fuel dk).2).toNat) = y := by
  induction fuel generalizing dk with
  | zero => exact h
  | succ f ih =>
    obtain ⟨d, k⟩ := dk
    rw [Strconv.trimZeros]
    split_ifs with hc
    · apply ih
      simp only at h ⊢
      obtain ⟨hk, hd⟩ := hc
      have e1 : k.toNat = 0 := by omega
      have e2 : (k + 1).toNat = 0 := by omega
      have e3 : (-k).toNat = (-(k + 1)).toNat + 1 := by omega
      rw [e1, pow_zero, Nat.mul_one, e3, pow_succ] at h
      rw [e2, pow_zero, Nat.mul_one, ← h]
      have hd10 : d = d / 10 * 10 := by omega
      nth_rewrite 2 [hd10]
      exact (round_scale neg (d / 10) (10 ^ (-(k + 1)).toNat) 10 (pow_pos (by norm_num) _)
        (by norm_num)).symm
    · exact h

/-! ## The fixed-point text of `FormatFloat` is read back as the decimal it writes -/

theorem toDigitsCore_eq (fuel n : Nat) (acc : GoString) :
    Nat.toDigitsCore 10 fuel n acc = Fmt.digitsLoop fuel n acc := by
  induction fuel generalizing n acc with
  | zero => rfl
  | succ f ih =>
    rw [Nat.toDigitsCore, Fmt.digitsLoop]
    by_cases hlt : n < 10
    · have h1 : n / 10 = 0 := by omega
      have h2 : n % 10 = n := by omega
      simp only [h1, h2, hlt, ↓reduceIte]
    · have h1 : n / 10 ≠ 0 := by omega
      simp only [h1, hlt, ↓reduceIte]
      exact ih _ _

theorem toDigits_eq (n : Nat) : Nat.toDigits 10 n = Fmt.decimal n := by
  unfold Nat.toDigits Fmt.decimal
  exact toDigitsCore_eq _ _ _

theorem replicate_zero_digit (k : Nat) : ∀ c ∈ List.replicate k '0', Fmt.IsDigit c := by
  intro c hc
  rw [List.mem_replicate] at hc
  exact ⟨0, by norm_num, hc.2⟩

theorem valueOf_zeros (acc k : Nat) :
    Fmt.valueOf acc (List.replicate k '0') = acc * 10 ^ k := by
  induction k generalizing acc with
  | zero => simp [Fmt.valueOf]
  | succ k ih =>
    rw [List.replicate_succ, valueOf_cons, ih, pow_succ]
    have : ('0'.toNat - '0'.toNat) = 0 := by decide
    rw [this]
    ring

theorem special_none_digit (s : GoString) (c : Char) (hc : Fmt.IsDigit c) (h : c ∈ s) :
    Strconv.special s = none := by
  have hmem : Strconv.toLower c ∈ s.map Strconv.toLower := List.mem_map_of_mem _ h
  have hnot : ∀ t ∈ ["inf".toList, "+inf".toList, "infinity".toList, "+infinity".toList,
      "-inf".toList, "-infinity".toList, "nan".toList], Strconv.toLower c ∉ t := by
    obtain ⟨d, hd, rfl⟩ := hc
    interval_cases d <;> decide
  have hne : ∀ t ∈ ["inf".toList, "+inf".toList, "infinity".toList, "+infinity".toList,
      "-inf".toList, "-infinity".toList, "nan".toList], s.map Strconv.toLower ≠ t := by
    intro t ht heq
    rw [heq] at hmem
    exact hnot t ht hmem
  unfold Strconv.special
  simp only
  rw [if_neg, if_neg, if_neg]
  · exact hne _ (by simp)
  · intro hor
    rcases hor with h1 | h1
    · exact hne _ (by simp) h1
    · exact hne _ (by simp) h1
  · intro hor
    rcases hor with h1 | h1 | h1 | h1
    · exact hne _ (by simp) h1
    · exact hne _ (by simp) h1
    · exact hne _ (by simp) h1
    · exact hne _ (by simp) h1

/-- The mantissa loop on a run of digits and nothing else. -/
theorem scan_integer (ip : GoString) (hip : ∀ c ∈ ip, Fmt.IsDigit c) (hne : ip ≠ []) :
    Strconv.scanMantissa 10 ip ⟨0, 0, false, false⟩ =
      (⟨Fmt.valueOf 0 ip, 0, false, true⟩, []) := by
  have := scan_digits ip [] ⟨0, 0, false, false⟩ hip
  rw [List.append_nil] at this
  rw [this, Strconv.scanMantissa]
  cases ip with
  | nil => exact absurd rfl hne
  | cons c cs => simp

/-- A run of digits, with or without a minus sign, is read as the nearest binary64 to the
integer it writes. -/
theorem ParseFloat_integer (neg : Bool) (ip : GoString) (hip : ∀ c ∈ ip, Fmt.IsDigit c)
    (hne : ip ≠ []) :
    Strconv.ParseFloat ((if neg then ['-'] else []) ++ ip) =
      F64.round neg (Fmt.valueOf 0 ip) 1 := by
  have hbody : ∀ c ∈ ip, c ≠ '_' ∧ Strconv.toLower c ≠ 'x' := by
    intro c hc
    have := digit_props c (hip c hc)
    exact ⟨this.2.1, this.2.2.2.2.2.2.1⟩
  have hsign : Strconv.takeSign ((if neg then ['-'] else []) ++ ip) = (neg, ip) := by
    cases neg with
    | true => rfl
    | false =>
      cases ip with
      | nil => exact absurd rfl hne
      | cons c cs =>
        have := digit_props c (hip c (List.mem_cons_self _ _))
        exact takeSign_plain c _ this.2.2.2.1 this.2.2.2.2.1
  have hspecial : Strconv.special ((if neg then ['-'] else []) ++ ip) = none := by
    cases ip with
    | nil => exact absurd rfl hne
    | cons c cs =>
      exact special_none_digit _ c (hip c (List.mem_cons_self _ _)) (by simp)
  have hund : ((if neg then ['-'] else []) ++ ip).contains '_' = false := by
    rw [List.contains_eq_any_beq, List.any_eq_false]
    intro c hc
    rcases List.mem_append.mp hc with h | h
    · cases neg
      · simp at h
      · simp only [↓reduceIte, List.mem_singleton] at h
        subst h
        decide
    · have := (hbody c h).1
      simpa using fun heq => this heq.symm
  unfold Strconv.ParseFloat
  rw [hspecial, readFloat_stages]
  simp only [hsign, takeHex_plain _ (fun c hc => (hbody c hc).2), Bool.false_eq_true, ↓reduceIte,
    scan_integer ip hip hne, Bool.not_true, Strconv.takeExponent, ne_eq, not_true_eq_false,
    hund, false_and, Int.toNat_zero, pow_zero, mul_one, neg_zero, Int.sub_zero, Nat.cast_zero,
    Int.toNat_ofNat]

theorem toDigits_take_drop (d f : Nat) :
    Fmt.valueOf 0 ((Nat.toDigits 10 d).take ((Nat.toDigits 10 d).length - f) ++
      (Nat.toDigits 10 d).drop ((Nat.toDigits 10 d).length - f)) = d := by
  rw [List.take_append_drop, toDigits_eq, decimal_value]

/-- The text of the decimal `d * 10 ^ k` is read back as the nearest binary64 to it. -/
theorem ParseFloat_fixedPoint (neg : Bool) (d : Nat) (k : Int) :
    Strconv.ParseFloat ((if neg then ['-'] else []) ++ Strconv.fixedPoint d k) =
      F64.round neg (d * 10 ^ k.toNat) (10 ^ (-k).toNat) := by
  have hdig : ∀ c ∈ Nat.toDigits 10 d, Fmt.IsDigit c := by
    rw [toDigits_eq]
    exact decimal_digit d
  have hnil : Nat.toDigits 10 d ≠ [] := by
    rw [toDigits_eq]
    exact decimal_ne_nil d
  have hval : Fmt.valueOf 0 (Nat.toDigits 10 d) = d := by
    rw [toDigits_eq, decimal_value]
  unfold Strconv.fixedPoint
  simp only
  by_cases hk : 0 ≤ k
  · rw [if_pos hk]
    have e1 : (-k).toNat = 0 := by omega
    rw [ParseFloat_integer neg _ (fun c hc => by
        rcases List.mem_append.mp hc with h | h
        · exact hdig c h
        · exact replicate_zero_digit _ c h) (by simp [hnil]),
      valueOf_append, hval, valueOf_zeros, e1, pow_zero]
  · rw [if_neg hk]
    have e1 : k.toNat = 0 := by omega
    rw [e1, pow_zero, Nat.mul_one]
    by_cases hf : (-k).toNat < (Nat.toDigits 10 d).length
    · rw [if_pos hf]
      rw [ParseFloat_fixed neg _ _ (fun c hc => hdig c (List.mem_of_mem_take hc))
        (by
          intro hnil'
          have := congrArg List.length hnil'
          simp only [List.length_take, List.length_nil] at this
          omega)
        (fun c hc => hdig c (List.mem_of_mem_drop hc)), toDigits_take_drop]
      congr 2
      simp only [List.length_drop]
      omega
    · rw [if_neg hf]
      have htext : ('0' :: '.' :: (List.replicate ((-k).toNat - (Nat.toDigits 10 d).length) '0' ++
          Nat.toDigits 10 d)) = ['0'] ++ '.' ::
            (List.replicate ((-k).toNat - (Nat.toDigits 10 d).length) '0' ++
          Nat.toDigits 10 d) := rfl
      rw [htext, ParseFloat_fixed neg _ _ (fun c hc => by
          rw [List.mem_singleton] at hc
          exact ⟨0, by norm_num, hc⟩) (by simp)
        (fun c hc => by
          rcases List.mem_append.mp hc with h | h
          · exact replicate_zero_digit _ c h
          · exact hdig c h)]
      rw [valueOf_append, valueOf_append, valueOf_zeros]
      have z : Fmt.valueOf 0 ['0'] = 0 := by decide
      rw [z, Nat.zero_mul, hval]
      congr 2
      simp only [List.length_append, List.length_replicate]
      omega

theorem fixedPoint_chars (d : Nat) (k : Int) :
    Strconv.fixedPoint d k ≠ [] ∧ ∀ c ∈ Strconv.fixedPoint d k, isNumChar c = true := by
  have hdig : ∀ c ∈ Nat.toDigits 10 d, isNumChar c = true := by
    rw [toDigits_eq]
    exact fun c hc => (digit_props c (decimal_digit d c hc)).2.2.2.2.2.1
  have hnil : Nat.toDigits 10 d ≠ [] := by
    rw [toDigits_eq]
    exact decimal_ne_nil d
  have hzero : ∀ n, ∀ c ∈ List.replicate n '0', isNumChar c = true := by
    intro n c hc
    rw [List.mem_replicate] at hc
    rw [hc.2]
    decide
  unfold Strconv.fixedPoint
  simp only
  split_ifs
  · refine ⟨by simp [hnil], ?_⟩
    intro c hc
    rcases List.mem_append.mp hc with h | h
    · exact hdig c h
    · exact hzero _ c h
  · refine ⟨by simp, ?_⟩
    intro c hc
    rcases List.mem_append.mp hc with h | h
    · exact hdig c (List.mem_of_mem_take h)
    · rcases List.mem_cons.mp h with rfl | h
      · decide
      · exact hdig c (List.mem_of_mem_drop h)
  · refine ⟨by simp, ?_⟩
    intro c hc
    rcases List.mem_cons.mp hc with rfl | h
    · decide
    · rcases List.mem_cons.mp h with rfl | h
      · decide
      · rcases List.mem_append.mp h with h | h
        · exact hzero _ c h
        · exact hdig c h

/-! ## Rendering and parsing again, with the parser and the formatter of Go -/

theorem FormatFloat_readback_inf :
    ∀ s : Bool,
      (if s = true then "-Inf".toList else "+Inf".toList) ≠ [] ∧
      numText (if s = true then "-Inf".toList else "+Inf".toList) = true ∧
      Strconv.ParseFloat (if s = true then "-Inf".toList else "+Inf".toList) =
        .ok ⟨s, ⟨2047, by decide⟩, ⟨0, by decide⟩⟩ := by
  decide

theorem FormatFloat_readback_zero :
    ∀ s : Bool,
      (if s = true then '-' :: ['0'] else ['0']) ≠ [] ∧
      numText (if s = true then '-' :: ['0'] else ['0']) = true ∧
      Strconv.ParseFloat (if s = true then '-' :: ['0'] else ['0']) =
        .ok ⟨s, ⟨0, by decide⟩, ⟨0, by decide⟩⟩ := by
  decide

theorem FormatFloat_readback_finite (x : F64) (T : Nat × Int)
    (hg : F64.round x.sign (T.1 * 10 ^ T.2.toNat) (10 ^ (-T.2).toNat) = .ok x) :
    (if x.sign = true then '-' :: Strconv.fixedPoint T.1 T.2 else Strconv.fixedPoint T.1 T.2)
        ≠ [] ∧
      numText (if x.sign = true then '-' :: Strconv.fixedPoint T.1 T.2
        else Strconv.fixedPoint T.1 T.2) = true ∧
      Strconv.ParseFloat (if x.sign = true then '-' :: Strconv.fixedPoint T.1 T.2
        else Strconv.fixedPoint T.1 T.2) = .ok x := by
  obtain ⟨d, k⟩ := T
  simp only at hg ⊢
  have htext : (if x.sign = true then '-' :: Strconv.fixedPoint d k else Strconv.fixedPoint d k) =
      (if x.sign then ['-'] else []) ++ Strconv.fixedPoint d k := by
    cases x.sign <;> rfl
  obtain ⟨hne, hch⟩ := fixedPoint_chars d k
  rw [htext]
  refine ⟨by simp [hne], ?_, ?_⟩
  · unfold numText
    rw [List.all_eq_true]
    intro c hc
    rcases List.mem_append.mp hc with h1 | h1
    · have hc' : c = '-' := by
        by_cases hsg : x.sign = true
        · simpa [hsg] using h1
        · simp [hsg] at h1
      subst hc'
      decide
    · exact hch c h1
  · rw [ParseFloat_fixedPoint, hg]

/-- Every float that is not NaN is written by `FormatFloat` as a non-empty number text, and
`ParseFloat` reads that text back as the same float. -/
theorem FormatFloat_readback (x : F64) (h : F64.IsNaN x = false) :
    Strconv.FormatFloat x ≠ [] ∧ numText (Strconv.FormatFloat x) = true ∧
      Strconv.ParseFloat (Strconv.FormatFloat x) = .ok x := by
  unfold Strconv.FormatFloat
  rw [if_neg (by simp [h])]
  by_cases hinf : x.expo.val = 2047
  · rw [if_pos hinf]
    have hfrac : x.frac.val = 0 := by simpa [F64.IsNaN, hinf] using h
    have hx : x = ⟨x.sign, ⟨2047, by decide⟩, ⟨0, by decide⟩⟩ := by
      refine F64.eq_of_sign_mag x _ rfl ?_
      show x.expo.val * 4503599627370496 + x.frac.val = 2047 * 4503599627370496 + 0
      rw [hinf, hfrac]
    have hk := FormatFloat_readback_inf x.sign
    rw [← hx] at hk
    exact hk
  rw [if_neg hinf]
  have hfin : F64.IsFinite x = true := by
    have := x.expo.isLt
    simp only [F64.IsFinite, decide_eq_true_eq]
    omega
  by_cases hz : x.mag = 0
  · rw [if_pos hz]
    have hx : x = ⟨x.sign, ⟨0, by decide⟩, ⟨0, by decide⟩⟩ := by
      refine F64.eq_of_sign_mag x _ rfl ?_
      show x.mag = 0 * 4503599627370496 + 0
      rw [hz]
    have hk := FormatFloat_readback_zero x.sign
    rw [← hx] at hk
    exact hk
  rw [if_neg hz]
  obtain ⟨num, j, hM, hr⟩ := round_magnitude x hfin
  rw [hM]
  exact FormatFloat_readback_finite x _ (trimZeros_good x.sign (.ok x) 20 _
    (shortestLoop_good x num j (Strconv.floorLog10 num (2 ^ j)) 17 1 hr))

/-- A lower bound of `-0` is not rendered (it is `== 0`), so it comes back as `0`: after the
round trip the bound is equal (`==`) to the one before, with another sign bit. -/
theorem String_negZero_start :
    ParseRange Strconv.ParseFloat "-0:5".toList = .ok ⟨F64.negZero, F64.ofInt 5, false⟩ ∧
    Range.String fmtPerfFloat ⟨F64.negZero, F64.ofInt 5, false⟩ = "5".toList ∧
    ParseRange Strconv.ParseFloat "5".toList = .ok ⟨F64.zero, F64.ofInt 5, false⟩ ∧
    F64.eq F64.zero F64.negZero = true ∧ F64.zero ≠ F64.negZero := by
  decide

/-- C2, amended: let `ParseRange` accept `s` with the range `r`, and let neither bound of `r`
be NaN. Then `ParseRange` accepts `String(r)`, and the range it returns has the same `End` and
`AlertOnInside` and a `Start` equal (`==`) to that of `r`; the `Start` is the very same float
unless it is `-0`. The number parser is Go's `strconv.ParseFloat`, the formatter is
`fmtPerfFloat`. -/
theorem ParseRange_String_roundtrip (s : GoString) (r : Range)
    (h : ParseRange Strconv.ParseFloat s = .ok r)
    (hS : F64.IsNaN r.Start = false) (hE : F64.IsNaN r.End = false) :
    ∃ r' : Range, ParseRange Strconv.ParseFloat (r.String fmtPerfFloat) = .ok r' ∧
      F64.eq r'.Start r.Start = true ∧ (r.Start ≠ F64.negZero → r'.Start = r.Start) ∧
      r'.End = r.End ∧ r'.AlertOnInside = r.AlertOnInside := by
  obtain ⟨_, hSnum, hSpf⟩ := FormatFloat_readback r.Start hS
  exact String_roundtrip_of_readback Strconv.ParseFloat fmtPerfFloat s r h hS hE
    (fun _ => ⟨hSnum, hSpf⟩) (FormatFloat_readback r.End hE)

/-- Witness for the amended C2 on the input `@10:20`: the rendered text is `@10:20` again. -/
theorem ParseRange_String_roundtrip_witness :
    ∃ r' : Range,
      ParseRange Strconv.ParseFloat
          (Range.String fmtPerfFloat ⟨F64.ofInt 10, F64.ofInt 20, true⟩) = .ok r' ∧
      F64.eq r'.Start (F64.ofInt 10) = true ∧
      (F64.ofInt 10 ≠ F64.negZero → r'.Start = F64.ofInt 10) ∧ r'.End = F64.ofInt 20 ∧
      r'.AlertOnInside = true :=
  ParseRange_String_roundtrip "@10:20".toList ⟨F64.ofInt 10, F64.ofInt 20, true⟩
    (by decide) (by decide) (by decide)

end Nagiosplugin
